import Mathlib

/-!
# VideoMancer stream-acquisition engine: a shallow embedding

This file embeds the core of the VideoMancer background service worker
(manifest parsing, quality selection, batched segment retrieval with its
failure policies, authentication-header capture and merge, and filename
sanitisation) as executable Lean definitions, and proves or refutes the
frozen specification claims about it.

Modelling conventions:
* JavaScript strings are modelled as `List Char` (`JSStr`), so that every
  string operation used by the source (split, trim, regex-like scans,
  replace) is an executable structural recursion.
* JavaScript numbers are modelled as `Nat` where the source only ever holds
  non-negative integers (`parseInt` on digit captures, counters, sizes) and
  as `Option DecNum` where `parseFloat` can produce `NaN` (`none` models
  `NaN`; `DecNum` is an exact scaled-decimal value).
  The one place where a JavaScript division can produce `Infinity`
  (`Math.ceil(7200 / segmentDuration)` with `segmentDuration = 0`) is
  modelled by an `Option Nat` whose `none` stands for the infinite bound of
  the resulting unbounded loop.
* Network fetches (`authenticatedFetch`) are modelled by an oracle
  `JSStr → FetchOutcome` giving the final outcome of the fetch (the
  single auth-fallback retry inside `authenticatedFetch` is folded into
  that outcome, which is how the downloaders observe it).
* `crypto.subtle` AES decryption (`decryptSegment`) is a platform
  primitive; the per-segment transformation it performs is abstracted as
  an oracle parameter of the HLS download model.
-/

/-- JavaScript strings, modelled as lists of characters. -/
abbrev JSStr := List Char

/-- Convenience: the character list of a Lean string literal. -/
def strLit (s : String) : JSStr := s.toList

/-- The whitespace class used by the source's `\s` regexes and `trim()`. -/
def isWSChar (c : Char) : Bool :=
  c = ' ' || c = '\t' || c = '\n' || c = '\r' || c = '\x0b' || c = '\x0c'

/-- JavaScript `String.prototype.trim()`: strip leading and trailing
whitespace. -/
def trimJS (s : JSStr) : JSStr :=
  ((s.dropWhile isWSChar).reverse.dropWhile isWSChar).reverse

/-- JavaScript `String.prototype.split(c)` for a single-character
separator: `"a\nb".split('\n') = ["a","b"]`, `"".split('\n') = [""]`. -/
def splitOnChar (c : Char) : JSStr → List JSStr
  | [] => [[]]
  | a :: rest =>
    if a = c then [] :: splitOnChar c rest
    else
      match splitOnChar c rest with
      | [] => [[a]]
      | r :: rs => (a :: r) :: rs

/-- Worker for `collapseWS`; the flag records whether we are inside a
whitespace run whose single replacement space was already emitted. -/
def collapseWSGo : Bool → JSStr → JSStr
  | _, [] => []
  | inRun, c :: rest =>
    if isWSChar c then
      if inRun then collapseWSGo true rest
      else ' ' :: collapseWSGo true rest
    else c :: collapseWSGo false rest

/-- JavaScript `.replace(/\s+/g, ' ')`: collapse every whitespace run into
a single space. -/
def collapseWS (s : JSStr) : JSStr := collapseWSGo false s

/-- Numeric value of a list of decimal digit characters. -/
def digitsToNat (ds : JSStr) : Nat :=
  ds.foldl (fun n c => n * 10 + (c.toNat - '0'.toNat)) 0

/-- Decimal rendering of a natural number, as JavaScript's number→string
coercion produces for integers. -/
def natToJS (n : Nat) : JSStr := Nat.toDigits 10 n

/-- Scan for the first occurrence of the literal `pat` that is immediately
followed by at least one decimal digit, and return the value of the
maximal digit run there; later occurrences are tried when an occurrence is
not followed by a digit.  This is the behaviour of a `/PAT(\d+)/` regex
match. -/
def findNumAfter (pat : JSStr) : JSStr → Option Nat
  | [] => none
  | c :: rest =>
    if pat.isPrefixOf (c :: rest) then
      let after := (c :: rest).drop pat.length
      let ds := after.takeWhile Char.isDigit
      if ds.isEmpty then findNumAfter pat rest
      else some (digitsToNat ds)
    else findNumAfter pat rest

/-- Scan for the first occurrence of `pat` followed by `\d+x\d+` and return
the matched `WxH` capture, as a `/PAT(\d+x\d+)/` regex match does. -/
def findResAfter (pat : JSStr) : JSStr → Option JSStr
  | [] => none
  | c :: rest =>
    if pat.isPrefixOf (c :: rest) then
      let after := (c :: rest).drop pat.length
      let ds1 := after.takeWhile Char.isDigit
      let after1 := after.drop ds1.length
      let ds2 := (after1.drop 1).takeWhile Char.isDigit
      if !ds1.isEmpty && after1.headD ' ' = 'x' && !ds2.isEmpty then
        some (ds1 ++ 'x' :: ds2)
      else findResAfter pat rest
    else findResAfter pat rest

/-- Scan for the first occurrence of `pat` followed by a non-empty run of
characters other than a double quote that is closed by a double quote, and
return that run; models a `/PAT([^"]+)"/` style capture. -/
def findQuotedAfter (pat : JSStr) : JSStr → Option JSStr
  | [] => none
  | c :: rest =>
    if pat.isPrefixOf (c :: rest) then
      let after := (c :: rest).drop pat.length
      let body := after.takeWhile (fun d => d ≠ '"')
      if !body.isEmpty && body.length < after.length then some body
      else findQuotedAfter pat rest
    else findQuotedAfter pat rest

/-- JavaScript `String.prototype.replace` with a plain-string pattern:
replace the first occurrence of `pat` only.  (The special `$`-patterns of
JavaScript replacement strings are not used by the source's call sites and
are not modelled.) -/
def replaceFirst (pat repl : JSStr) : JSStr → JSStr
  | [] => []
  | c :: rest =>
    if pat.isPrefixOf (c :: rest) then repl ++ (c :: rest).drop pat.length
    else c :: replaceFirst pat repl rest

/-- Lower-case a JavaScript string (ASCII is all the source needs). -/
def toLowerJS (s : JSStr) : JSStr := s.map Char.toLower

/-- JavaScript `String.prototype.endsWith`. -/
def endsWithJS (suffix s : JSStr) : Bool := suffix.isSuffixOf s

/-- An exact decimal number: the value `num / 10 ^ exp`.  This represents
the decimal literals JavaScript's `parseFloat` reads in this source
exactly (the source never does arithmetic on them, it only stores them),
in the canonical form produced by `parseFloatJS`. -/
structure DecNum where
  num : Int
  exp : Nat
deriving DecidableEq, Repr

/-- JavaScript `parseFloat`, restricted to the decimal shapes the source
feeds it (optional sign, digits, optional fraction; no exponents occur in
the call sites).  `none` models `NaN`. -/
def parseFloatJS (s : JSStr) : Option DecNum :=
  let t := s.dropWhile isWSChar
  let (neg, t) := match t with
    | '-' :: r => (true, r)
    | '+' :: r => (false, r)
    | r => (false, r)
  let intPart := t.takeWhile Char.isDigit
  let t1 := t.drop intPart.length
  let fracPart := match t1 with
    | '.' :: r => r.takeWhile Char.isDigit
    | _ => []
  if intPart.isEmpty && fracPart.isEmpty then none
  else
    let v : Nat := digitsToNat intPart * 10 ^ fracPart.length + digitsToNat fracPart
    some { num := if neg then -(v : Int) else (v : Int), exp := fracPart.length }

/-! ## URL resolution

`resolveUrl` in the source delegates to the WHATWG `new URL(relative,
base).href` constructor, returning `relative` unchanged when the
constructor throws.  The constructor is a platform primitive; the model
below implements its resolution rule for the URL shapes that occur in
this repository (absolute URLs, protocol-relative, root-relative and
plain path-relative references without dot segments), and keeps the
source's catch-fallback. -/

/-- Does the string start with a URL scheme followed by a colon? -/
def hasScheme (s : JSStr) : Bool :=
  let head := s.takeWhile fun c =>
    c.isAlpha || c.isDigit || c = '+' || c = '-' || c = '.'
  !head.isEmpty && (s.headD ' ').isAlpha && (s.drop head.length).headD ' ' = ':'

/-- Split an absolute `scheme://host/path?query` URL into its
`scheme://host` origin and the rest (starting with the path), when it has
that shape. -/
def splitOriginJS (s : JSStr) : Option (JSStr × JSStr) :=
  if hasScheme s then
    let scheme := s.takeWhile (fun c => c ≠ ':')
    let after := s.drop (scheme.length + 1)
    if (strLit "//").isPrefixOf after then
      let hostAndRest := after.drop 2
      let host := hostAndRest.takeWhile fun c => c ≠ '/' && c ≠ '?' && c ≠ '#'
      some (scheme ++ strLit "://" ++ host, hostAndRest.drop host.length)
    else none
  else none

/-- The directory part of an absolute URL's path: everything up to and
including the last slash, with query and fragment stripped; `/` when the
path has no slash. -/
def dirOfPath (path : JSStr) : JSStr :=
  let p := path.takeWhile fun c => c ≠ '?' && c ≠ '#'
  let cut := (p.reverse.dropWhile fun c => c ≠ '/').reverse
  if cut.isEmpty then strLit "/" else cut

/-- Model of the source's `resolveUrl(base, relative)`:
`new URL(relative, base).href` with a catch that returns `relative`. -/
def resolveUrl (base relative : JSStr) : JSStr :=
  if hasScheme relative then relative
  else
    match splitOriginJS base with
    | none => relative
    | some (origin, path) =>
      if (strLit "//").isPrefixOf relative then
        base.takeWhile (fun c => c ≠ ':') ++ ':' :: relative
      else if (strLit "/").isPrefixOf relative then origin ++ relative
      else origin ++ dirOfPath path ++ relative

/-- `new URL(url).origin`, `none` when the URL does not parse. -/
def urlOriginJS (url : JSStr) : Option JSStr :=
  (splitOriginJS url).map Prod.fst

/-! ## HLS manifest parsing (`parseM3U8Master`, `parseM3U8Segments`,
`parseM3U8Key`) -/

/-- One quality entry produced by `parseM3U8Master`. -/
structure HQual where
  url : JSStr
  bandwidth : Nat
  resolution : Option JSStr
  height : Nat
  label : JSStr
deriving DecidableEq, Repr

/-- `Math.round(bandwidth / 1000)` for a natural `bandwidth`. -/
def roundKbps (bw : Nat) : Nat := (2 * bw + 1000) / 2000

/-- The label the source builds for a master-playlist entry. -/
def hqualLabel (nameMatch : Option JSStr) (height bandwidth : Nat) : JSStr :=
  match nameMatch with
  | some n => n
  | none =>
    if height ≠ 0 then natToJS height ++ strLit "p"
    else natToJS (roundKbps bandwidth) ++ strLit "kbps"

/-- The loop body of `parseM3U8Master`: walk the (trimmed) lines; for each
`#EXT-X-STREAM-INF:` line take its attribute text and the next non-empty
non-comment line as the variant URL. -/
def masterCollect (baseUrl : JSStr) : List JSStr → List HQual
  | [] => []
  | line :: rest =>
    if (strLit "#EXT-X-STREAM-INF:").isPrefixOf line then
      let attrs := line.drop (strLit "#EXT-X-STREAM-INF:").length
      let urlLine :=
        rest.find? fun l => !l.isEmpty && !((strLit "#").isPrefixOf l)
      match urlLine with
      | none => masterCollect baseUrl rest
      | some u =>
        let bandwidth := (findNumAfter (strLit "BANDWIDTH=") attrs).getD 0
        let resolution := findResAfter (strLit "RESOLUTION=") attrs
        let height :=
          match resolution with
          | some r => digitsToNat (((splitOnChar 'x' r).getD 1 []).takeWhile Char.isDigit)
          | none => 0
        let nameMatch := findQuotedAfter (strLit "NAME=\"") attrs
        { url := resolveUrl baseUrl u
          bandwidth := bandwidth
          resolution := resolution
          height := height
          label := hqualLabel nameMatch height bandwidth } ::
          masterCollect baseUrl rest
    else masterCollect baseUrl rest

/-- `parseM3U8Master(content, baseUrl)`: collect the variant entries and
sort them by descending bandwidth (JavaScript's stable `Array.sort` with
comparator `(a, b) => b.bandwidth - a.bandwidth`, modelled by the stable
`List.mergeSort`). -/
def parseM3U8Master (content baseUrl : JSStr) : List HQual :=
  (masterCollect baseUrl ((splitOnChar '\n' content).map trimJS)).mergeSort
    fun a b => b.bandwidth ≤ a.bandwidth

/-- One media segment produced by `parseM3U8Segments`.  The duration is
the JavaScript number `parseFloat` produced (`none` models `NaN`). -/
structure HSeg where
  url : JSStr
  duration : Option DecNum
deriving DecidableEq, Repr

/-- The loop body of `parseM3U8Segments`, threading `currentDuration`. -/
def segsCollect (baseUrl : JSStr) (cur : Option DecNum) : List JSStr → List HSeg
  | [] => []
  | line :: rest =>
    if (strLit "#EXTINF:").isPrefixOf line then
      segsCollect baseUrl (parseFloatJS ((splitOnChar ':' line).getD 1 [])) rest
    else if !line.isEmpty && !((strLit "#").isPrefixOf line) then
      { url := resolveUrl baseUrl line, duration := cur } ::
        segsCollect baseUrl (some { num := 0, exp := 0 }) rest
    else segsCollect baseUrl cur rest

/-- `parseM3U8Segments(content, baseUrl)`. -/
def parseM3U8Segments (content baseUrl : JSStr) : List HSeg :=
  segsCollect baseUrl (some { num := 0, exp := 0 }) ((splitOnChar '\n' content).map trimJS)

/-- The AES-128 key directive extracted by `parseM3U8Key`. -/
structure KeyInfo where
  uri : JSStr
  iv : Option JSStr
deriving DecidableEq, Repr

/-- Worker for `parseM3U8Key`: scan for the literal head of the
`#EXT-X-KEY:METHOD=AES-128,URI="..."` directive, capture the non-empty
URI body up to the closing quote, and then the optional `,IV=0x...` hex
capture. -/
def keyScan (baseUrl : JSStr) : JSStr → Option KeyInfo
  | [] => none
  | c :: rest =>
    let pat := strLit "#EXT-X-KEY:METHOD=AES-128,URI=\""
    if pat.isPrefixOf (c :: rest) then
      let after := (c :: rest).drop pat.length
      let body := after.takeWhile (fun d => d ≠ '"')
      if !body.isEmpty && body.length < after.length then
        let tail0 := after.drop (body.length + 1)
        let ivPat := strLit ",IV=0x"
        let iv :=
          if ivPat.isPrefixOf tail0 then
            let hex := (tail0.drop ivPat.length).takeWhile fun d =>
              d.isDigit || ('a' ≤ d && d ≤ 'f') || ('A' ≤ d && d ≤ 'F')
            if hex.isEmpty then none else some hex
          else none
        some { uri := resolveUrl baseUrl body, iv := iv }
      else keyScan baseUrl rest
    else keyScan baseUrl rest

/-- `parseM3U8Key(content, baseUrl)`: the first AES-128 key directive, if
any. -/
def parseM3U8Key (content baseUrl : JSStr) : Option KeyInfo :=
  keyScan baseUrl content

/-! ## Authentication-context capture and merge

Model of the `chrome.webRequest.onBeforeSendHeaders` listener body (after
its stream-URL gate): build the `captured` object from the outgoing
request headers, apply the page-origin referer fallback, and merge it
over the stored per-tab context with a JavaScript object spread
`{ ...existing, ...captured }`. -/

/-- The shape of both the `captured` object and the stored per-tab
context: a field is `none` when the corresponding key is absent from the
JavaScript object (`some []` is a present-but-empty string, which is
falsy but still a present key for the spread). -/
structure AuthCtx where
  cookie : Option JSStr
  authorization : Option JSStr
  referer : Option JSStr
  origin : Option JSStr
  custom : Option (List (JSStr × JSStr))
deriving DecidableEq, Repr

/-- The empty object `{}`. -/
def AuthCtx.empty : AuthCtx :=
  { cookie := none, authorization := none, referer := none, origin := none,
    custom := none }

/-- JavaScript object-key assignment `obj[name] = value` on an
insertion-ordered object: an existing key keeps its position and gets the
new value, a new key is appended. -/
def upsertJS (name value : JSStr) : List (JSStr × JSStr) → List (JSStr × JSStr)
  | [] => [(name, value)]
  | (n, v) :: rest =>
    if n = name then (n, value) :: rest
    else (n, v) :: upsertJS name value rest

/-- One iteration of the header-capture loop. -/
def captureHeader (acc : AuthCtx) (h : JSStr × JSStr) : AuthCtx :=
  let name := toLowerJS h.1
  let acc := if name = strLit "cookie" then { acc with cookie := some h.2 } else acc
  let acc := if name = strLit "authorization" then { acc with authorization := some h.2 } else acc
  let acc := if name = strLit "referer" then { acc with referer := some h.2 } else acc
  let acc := if name = strLit "origin" then { acc with origin := some h.2 } else acc
  if (strLit "x-").isPrefixOf name || name = strLit "range" then
    { acc with custom := some (upsertJS h.1 h.2 (acc.custom.getD [])) }
  else acc

/-- The `captured` object after the loop over `details.requestHeaders`. -/
def captureFromHeaders (reqHeaders : List (JSStr × JSStr)) : AuthCtx :=
  reqHeaders.foldl captureHeader AuthCtx.empty

/-- The referer fallback: when `captured.referer` is falsy, derive
`new URL(url).origin + '/'` (ignored when the URL does not parse). -/
def withRefererFallback (captured : AuthCtx) (url : JSStr) : AuthCtx :=
  if captured.referer = none ∨ captured.referer = some [] then
    match urlOriginJS url with
    | some o => { captured with referer := some (o ++ strLit "/") }
    | none => captured
  else captured

/-- The JavaScript spread merge `{ ...existing, ...captured }`: every key
present in `captured` overwrites the stored one; keys absent from
`captured` are kept from `existing`. -/
def spreadMerge (existing captured : AuthCtx) : AuthCtx :=
  { cookie := captured.cookie.orElse fun _ => existing.cookie
    authorization := captured.authorization.orElse fun _ => existing.authorization
    referer := captured.referer.orElse fun _ => existing.referer
    origin := captured.origin.orElse fun _ => existing.origin
    custom := captured.custom.orElse fun _ => existing.custom }

/-- The whole listener step for a stream request: capture, fallback,
merge into the tab's stored context. -/
def captureAndMerge (existing : AuthCtx) (reqHeaders : List (JSStr × JSStr))
    (url : JSStr) : AuthCtx :=
  spreadMerge existing (withRefererFallback (captureFromHeaders reqHeaders) url)

/-! ## Filename sanitisation and the two download filename builders -/

/-- Is the character one of the reserved set the source replaces? -/
def isBadFileChar (c : Char) : Bool :=
  c = '<' || c = '>' || c = ':' || c = '"' || c = '/' || c = '\\' ||
  c = '|' || c = '?' || c = '*'

/-- `sanitizeFilename` before the 200-character cap: replace reserved
characters with an underscore, collapse whitespace runs, trim. -/
def sanitizePreCap (name : JSStr) : JSStr :=
  trimJS (collapseWS (name.map fun c => if isBadFileChar c then '_' else c))

/-- `sanitizeFilename(name)` from the source: the capped sanitised name. -/
def sanitizeFilename (name : JSStr) : JSStr :=
  (sanitizePreCap name).take 200

/-- `(video.filename || 'video')`: the JavaScript `||` default for a
missing or empty filename. -/
def filenameOrDefault (videoFilename : Option JSStr) : JSStr :=
  match videoFilename with
  | some f => if f.isEmpty then strLit "video" else f
  | none => strLit "video"

/-- `.replace(/\.(m3u8?|ts)$/i, '')`: strip one trailing `.m3u8`, `.m3u`
or `.ts` extension, case-insensitively. -/
def stripHLSExt (name : JSStr) : JSStr :=
  if endsWithJS (strLit ".m3u8") (toLowerJS name) then name.take (name.length - 5)
  else if endsWithJS (strLit ".m3u") (toLowerJS name) then name.take (name.length - 4)
  else if endsWithJS (strLit ".ts") (toLowerJS name) then name.take (name.length - 3)
  else name

/-- `.replace(/\.(mpd|mp4)$/i, '')`: strip one trailing `.mpd` or `.mp4`
extension, case-insensitively. -/
def stripDASHExt (name : JSStr) : JSStr :=
  if endsWithJS (strLit ".mpd") (toLowerJS name) then name.take (name.length - 4)
  else if endsWithJS (strLit ".mp4") (toLowerJS name) then name.take (name.length - 4)
  else name

/-- The filename the HLS download path hands to `chrome.downloads`. -/
def hlsOutputFilename (videoFilename : Option JSStr) : JSStr :=
  sanitizeFilename (stripHLSExt (filenameOrDefault videoFilename) ++ strLit ".ts")

/-- The filename the DASH segment download path hands to
`chrome.downloads`. -/
def dashOutputFilename (videoFilename : Option JSStr) : JSStr :=
  sanitizeFilename (stripDASHExt (filenameOrDefault videoFilename) ++ strLit ".mp4")

/-! ## Fetch outcomes and download results -/

/-- Final outcome of one `authenticatedFetch` call, as the downloaders
observe it: a body on `resp.ok`, an HTTP status on `!resp.ok`, or a
thrown error (network failure surviving the fallback retry). -/
inductive FetchOutcome where
  | ok (bytes : List Nat)
  | httpErr (status : Nat)
  | thrown (msg : JSStr)
deriving DecidableEq, Repr

/-- Did the fetch succeed? -/
def FetchOutcome.isOk : FetchOutcome → Bool
  | .ok _ => true
  | _ => false

/-- Was the fetch an HTTP failure (`!resp.ok`)? -/
def FetchOutcome.isHttpErr : FetchOutcome → Bool
  | .httpErr _ => true
  | _ => false

/-- The body of a successful fetch (junk `[]` otherwise; only used under
success hypotheses). -/
def FetchOutcome.bytesD : FetchOutcome → List Nat
  | .ok b => b
  | _ => []

/-- Result of a segmented download as `messageHandlers.downloadVideo`
reports it: either the success record (with the chunk list handed to the
`Blob`, the sanitised filename handed to `chrome.downloads.download`, and
the reported `segmentCount`), or the single error message (a returned
`{ error }` or the message of a caught exception).  An `err` result saves
no file. -/
inductive DLResult where
  | ok (chunks : List (List Nat)) (filename : JSStr) (segmentCount : Nat)
  | err (msg : JSStr)
deriving DecidableEq, Repr

/-- The message of the error thrown when the failure budget is exceeded:
`Too many segment failures (status)`. -/
def tooManyFailuresMsg (status : Nat) : JSStr :=
  strLit "Too many segment failures (" ++ natToJS status ++ strLit ")"

/-- The `batchSize = settings.maxConcurrentDownloads || 3` default. -/
def effectiveBatchSize (maxConcurrentDownloads : Nat) : Nat :=
  if maxConcurrentDownloads = 0 then 3 else maxConcurrentDownloads

/-- The batch windows of the download loops:
`segments.slice(i, i + batchSize)` for `i = 0, k, 2k, ...`. -/
def chunksOf (k : Nat) (l : List α) : List (List α) :=
  (List.range ((l.length + k - 1) / k)).map fun i => (l.drop (i * k)).take k

/-! ## The HLS segment download loop (`downloadHLSSegments`) -/

/-- The per-segment decryption applied when a key was fetched:
`decryptSegment(data, key, keyInfo.iv, index)`.  AES-CBC itself is a
platform primitive, so the HLS download model is parameterised by this
oracle. -/
abbrev DecryptOracle := List Nat → List Nat → Option JSStr → Nat → List Nat

/-- The transformation a downloaded segment body goes through before
being stored: decrypt when both a key body and a key directive are
present, identity otherwise. -/
def segTransform (decrypt : DecryptOracle) (decryptionKey : Option (List Nat))
    (keyInfo : Option KeyInfo) (data : List Nat) (index : Nat) : List Nat :=
  match decryptionKey, keyInfo with
  | some k, some ki => decrypt data k ki.iv index
  | _, _ => data

/-- One batch of the HLS loop (`Promise.all(batch.map(...))`), processed
in list order while threading the shared `failureCount`: a failed fetch
increments the counter and yields `null` (`none`), unless the counter
exceeds the budget 5, which rejects the whole batch with the
`Too many segment failures` error; a thrown fetch rejects it with its own
message.  (Whether a batch rejects does not depend on the completion
order of its requests — see the scheduled model below — so the rejection
carries a canonical failing status.) -/
def hlsBatch (afetch : JSStr → FetchOutcome) (tr : List Nat → Nat → List Nat)
    (i0 : Nat) : List HSeg → Nat → Nat → Except JSStr (List (Option (List Nat)) × Nat)
  | [], _, fc => .ok ([], fc)
  | seg :: rest, pos, fc =>
    match afetch seg.url with
    | .thrown m => .error m
    | .httpErr st =>
      if fc + 1 > 5 then .error (tooManyFailuresMsg st)
      else
        match hlsBatch afetch tr i0 rest (pos + 1) (fc + 1) with
        | .error m => .error m
        | .ok (rs, fc') => .ok (none :: rs, fc')
    | .ok data =>
      match hlsBatch afetch tr i0 rest (pos + 1) fc with
      | .error m => .error m
      | .ok (rs, fc') => .ok (some (tr data (i0 + pos)) :: rs, fc')

/-- The batched HLS loop: windows run in sequence, each window's non-null
results are appended to `chunks` (`chunks.push(...results.filter(Boolean))`),
and a rejected window aborts the whole retrieval. -/
def hlsBatches (afetch : JSStr → FetchOutcome) (tr : List Nat → Nat → List Nat) :
    List (List HSeg) → Nat → Nat → Except JSStr (List (List Nat))
  | [], _, _ => .ok []
  | b :: bs, i0, fc =>
    match hlsBatch afetch tr i0 b 0 fc with
    | .error m => .error m
    | .ok (rs, fc') =>
      match hlsBatches afetch tr bs (i0 + b.length) fc' with
      | .error m => .error m
      | .ok cs => .ok (rs.filterMap id ++ cs)

/-- `downloadHLSSegments(content, baseUrl, video, tabId)` as observed
through `downloadVideo` (a thrown error is caught there and surfaces as
an `{ error }` result): parse the media playlist, fetch the optional AES
key, run the batched segment loop, and either fail (`No segments found`,
the budget error, `No segments downloaded — authentication may have
expired`) or save the assembled chunks under the sanitised `.ts`
filename and report `segmentCount = segments.length`. -/
def downloadHLSSegmentsRun (afetch : JSStr → FetchOutcome)
    (decrypt : DecryptOracle) (maxConcurrentDownloads : Nat)
    (content baseUrl : JSStr) (videoFilename : Option JSStr) : DLResult :=
  let segments := parseM3U8Segments content baseUrl
  if segments.isEmpty then .err (strLit "No segments found")
  else
    let keyInfo := parseM3U8Key content baseUrl
    let decryptionKey : Option (List Nat) :=
      match keyInfo with
      | some ki =>
        match afetch ki.uri with
        | .ok b => some b
        | _ => none
      | none => none
    let tr := segTransform decrypt decryptionKey keyInfo
    match hlsBatches afetch tr (chunksOf (effectiveBatchSize maxConcurrentDownloads) segments) 0 0 with
    | .error m => .err m
    | .ok chunks =>
      if chunks.isEmpty then
        .err (strLit "No segments downloaded — authentication may have expired")
      else .ok chunks (hlsOutputFilename videoFilename) segments.length

/-- The decryption key the run obtains before the segment loop (the
`decryptionKey` binding of `downloadHLSSegments`): the body fetched from
the key directive's URI when the playlist carries one and the fetch
succeeds, `none` otherwise.  Named here so the run's observable result
can be stated without inlining the match. -/
def hlsDecryptionKey (afetch : JSStr → FetchOutcome) (content baseUrl : JSStr) :
    Option (List Nat) :=
  match parseM3U8Key content baseUrl with
  | some ki =>
    match afetch ki.uri with
    | .ok b => some b
    | _ => none
  | none => none

/-- The quality-selection step of `downloadHLS` once the master playlist
has parsed. -/
inductive HLSMasterStep where
  | mediaPlaylist
  | fetchMedia (q : HQual)
  | err (msg : JSStr)
deriving DecidableEq, Repr

/-- `downloadHLS` after fetching and parsing the manifest: an empty
master parse means the content is already a media playlist; otherwise
pick the representation whose URL equals the caller's truthy
`selectedQuality`, or the first (best) one, and fail with
`Quality not found` when the lookup misses. -/
def downloadHLSMasterStep (qualities : List HQual)
    (selectedQuality : Option JSStr) : HLSMasterStep :=
  if qualities.isEmpty then .mediaPlaylist
  else
    let selected :=
      match selectedQuality with
      | some s => if s.isEmpty then qualities.head? else qualities.find? fun q => q.url = s
      | none => qualities.head?
    match selected with
    | some q => .fetchMedia q
    | none => .err (strLit "Quality not found")

/-! ## The DASH download path -/

/-- The `segmentTemplate` record captured by `parseMPD` (numeric fields
already defaulted: `startNumber` 1, `timescale` 1, `duration` 0). -/
structure SegTemplate where
  initialization : Option JSStr
  media : Option JSStr
  startNumber : Nat
  timescale : Nat
  duration : Nat
deriving DecidableEq, Repr

/-- A representation record produced by `parseMPD` (the XML walk itself
uses the platform `DOMParser` and is upstream of the claims; only the
fields the download dispatch and segment loop read are modelled). -/
structure DQual where
  id : JSStr
  url : JSStr
  bandwidth : Nat
  isVideo : Bool
  isAudio : Bool
  segmentTemplate : Option SegTemplate
deriving DecidableEq, Repr

/-- What `downloadDASH` decides to do after fetching and parsing the MPD:
hand off to `downloadDirect(url)`, hand off to
`downloadDASHSegments(rep)`, or return an error record. -/
inductive DashAction where
  | direct (url : JSStr)
  | segments (rep : DQual)
  | err (msg : JSStr)
deriving DecidableEq, Repr

/-- The dispatch logic of `downloadDASH` after `parseMPD` (source lines
1545–1570): an empty parse fails; a truthy `selectedQuality` is looked up
by URL or id and used when it has a distinct URL or a segment template,
otherwise the code falls through to the default best-quality choice. -/
def downloadDASHDispatch (qualities : List DQual) (videoUrl : JSStr)
    (selectedQuality : Option JSStr) : DashAction :=
  if qualities.isEmpty then .err (strLit "No representations found in DASH manifest")
  else
    let fromSelected : Option DashAction :=
      match selectedQuality with
      | some s =>
        if s.isEmpty then none
        else
          match qualities.find? (fun q => q.url = s || q.id = s) with
          | some sel =>
            if !sel.url.isEmpty && sel.url ≠ videoUrl then some (.direct sel.url)
            else if sel.segmentTemplate.isSome then some (.segments sel)
            else none
          | none => none
      | none => none
    match fromSelected with
    | some a => a
    | none =>
      let best := (qualities.find? fun q =>
        q.isVideo && !q.url.isEmpty && q.url ≠ videoUrl).getD (qualities.headD
          { id := [], url := [], bandwidth := 0, isVideo := false,
            isAudio := false, segmentTemplate := none })
      if !best.url.isEmpty && best.url ≠ videoUrl then .direct best.url
      else if best.segmentTemplate.isSome then .segments best
      else .err (strLit "Could not resolve DASH segments")

/-- `Math.ceil(7200 / (tmpl.duration / tmpl.timescale))` under JavaScript
number semantics: `none` models the `Infinity` produced when
`segmentDuration` is `0` (division by zero), which makes the generation
loop unbounded; a zero `timescale` gives `segmentDuration = Infinity` or
`NaN`, and in both cases the loop body never runs. -/
def dashMaxSegments (tmpl : SegTemplate) : Option Nat :=
  if tmpl.timescale = 0 then some 0
  else if tmpl.duration = 0 then none
  else some ((7200 * tmpl.timescale + tmpl.duration - 1) / tmpl.duration)

/-- The template-substituted, resolved URL of segment number `num`. -/
def dashSegmentUrl (tmpl : SegTemplate) (repId videoUrl : JSStr) (num : Nat) : JSStr :=
  resolveUrl videoUrl
    (replaceFirst (strLit "$RepresentationID$") repId
      (replaceFirst (strLit "$Number$") (natToJS num) (tmpl.media.getD [])))

/-- The segment-URL generation loop of `downloadDASHSegments`:
`for (num = startNumber; num < startNumber + maxSegments; num++)`.
`none` models the unbounded loop arising from an infinite
`maxSegments`. -/
def dashSegmentUrls (tmpl : SegTemplate) (repId videoUrl : JSStr) :
    Option (List JSStr) :=
  (dashMaxSegments tmpl).map fun m =>
    (List.range m).map fun k => dashSegmentUrl tmpl repId videoUrl (tmpl.startNumber + k)

/-- One batch of the DASH loop: `Promise.all` over the window, where any
non-ok response throws `Segment 404`; the surrounding `try` turns any
rejection into `none`. -/
def dashBatch (afetch : JSStr → FetchOutcome) : List JSStr → Option (List (List Nat))
  | [] => some []
  | u :: rest =>
    match afetch u with
    | .ok b => (dashBatch afetch rest).map fun bs => b :: bs
    | _ => none

/-- The batched DASH loop: windows run in sequence and append their
bodies to `chunks`; the first rejected window `break`s out of the loop,
keeping only what was collected so far. -/
def dashBatches (afetch : JSStr → FetchOutcome) : List (List JSStr) → List (List Nat)
  | [] => []
  | b :: bs =>
    match dashBatch afetch b with
    | some rs => rs ++ dashBatches afetch bs
    | none => []

/-- The optional initialization-segment chunk: fetched with auth, pushed
only on `resp.ok`, all failures swallowed. -/
def dashInitChunk (afetch : JSStr → FetchOutcome) (tmpl : SegTemplate)
    (repId videoUrl : JSStr) : List (List Nat) :=
  match tmpl.initialization with
  | some ini =>
    if ini.isEmpty then []
    else
      match afetch (resolveUrl videoUrl (replaceFirst (strLit "$RepresentationID$") repId ini)) with
      | .ok b => [b]
      | _ => []
  | none => []

/-- `downloadDASHSegments(representation, video, tabId)`.  The outer
`none` models the non-terminating run whose segment generation loop is
unbounded (`dashMaxSegments = none`); otherwise the run completes with a
`DLResult`.  On success the reported `segmentCount` is `chunks.length`. -/
def downloadDASHSegmentsRun (afetch : JSStr → FetchOutcome)
    (maxConcurrentDownloads : Nat) (rep : DQual) (videoUrl : JSStr)
    (videoFilename : Option JSStr) : Option DLResult :=
  match rep.segmentTemplate with
  | none => some (.err (strLit "No segment template"))
  | some tmpl =>
    if (tmpl.media.getD []).isEmpty then some (.err (strLit "No segment template"))
    else
      (dashSegmentUrls tmpl rep.id videoUrl).map fun segments =>
        let chunks := dashInitChunk afetch tmpl rep.id videoUrl ++
          dashBatches afetch (chunksOf (effectiveBatchSize maxConcurrentDownloads) segments)
        if chunks.isEmpty then .err (strLit "No DASH segments downloaded")
        else .ok chunks (dashOutputFilename videoFilename) chunks.length

/-! ## Completion-order model of the HLS batch

`Promise.all(batch.map(...))` starts every request of a window
concurrently and collects each result *at the array position of its
segment*, whatever order the requests complete in.  The model below makes
the completion order explicit: a window is executed along a list of slot
indices (the completion order), each completion writing its result into
its own slot; `Promise.all` resolves to the slots read in position order.
The canonical `hlsBatch` above is the special case of the in-order
schedule, and the order-independence proved later is exactly the
spec's re-run stability property. -/

/-- Was the fetch outcome a thrown error? -/
def FetchOutcome.isThrown : FetchOutcome → Bool
  | .thrown _ => true
  | _ => false

/-- Map with the absolute position threaded through. -/
def idxMap (f : Nat → α → β) : Nat → List α → List β
  | _, [] => []
  | i, a :: l => f i a :: idxMap f (i + 1) l

/-- Number of HTTP-failed segment fetches in a segment list. -/
def countHttpFail (afetch : JSStr → FetchOutcome) (segs : List HSeg) : Nat :=
  segs.countP fun s => (afetch s.url).isHttpErr

/-- Number of successful segment fetches in a segment list. -/
def countFetchOk (afetch : JSStr → FetchOutcome) (segs : List HSeg) : Nat :=
  segs.countP fun s => (afetch s.url).isOk

/-- Execute one window along a completion order: the completion of slot
`j` fetches segment `j` of the window and records its result (the
decrypted body, or `null` for an in-budget failure) in slot `j`,
incrementing the shared failure counter on failures and rejecting the
window when the budget is exceeded, exactly as the canonical model
does. -/
def hlsBatchSchedGo (afetch : JSStr → FetchOutcome) (tr : List Nat → Nat → List Nat)
    (i0 : Nat) (batch : List HSeg) :
    List Nat → List (Option (Option (List Nat))) → Nat →
      Except JSStr (List (Option (Option (List Nat))) × Nat)
  | [], slots, fc => .ok (slots, fc)
  | j :: rest, slots, fc =>
    match batch[j]? with
    | none => hlsBatchSchedGo afetch tr i0 batch rest slots fc
    | some seg =>
      match afetch seg.url with
      | .thrown m => .error m
      | .httpErr st =>
        if fc + 1 > 5 then .error (tooManyFailuresMsg st)
        else hlsBatchSchedGo afetch tr i0 batch rest (slots.set j (some none)) (fc + 1)
      | .ok data =>
        hlsBatchSchedGo afetch tr i0 batch rest
          (slots.set j (some (some (tr data (i0 + j))))) fc

/-- One window under a completion order: run the completions, then read
the slots in position order (an unfilled slot reads as `null`; a
completion order covering every slot, i.e. a permutation of the window's
indices, fills them all). -/
def hlsBatchSched (afetch : JSStr → FetchOutcome) (tr : List Nat → Nat → List Nat)
    (i0 : Nat) (batch : List HSeg) (order : List Nat) (fc : Nat) :
    Except JSStr (List (Option (List Nat)) × Nat) :=
  match hlsBatchSchedGo afetch tr i0 batch order
      (List.replicate batch.length none) fc with
  | .error m => .error m
  | .ok (slots, fc') => .ok (slots.map fun s => s.getD none, fc')

/-- The batched HLS loop under a schedule assigning window `k` its
completion order `sched k`. -/
def hlsBatchesSched (afetch : JSStr → FetchOutcome) (tr : List Nat → Nat → List Nat)
    (sched : Nat → List Nat) :
    List (List HSeg) → Nat → Nat → Nat → Except JSStr (List (List Nat))
  | [], _, _, _ => .ok []
  | b :: bs, k, i0, fc =>
    match hlsBatchSched afetch tr i0 b (sched k) fc with
    | .error m => .error m
    | .ok (rs, fc') =>
      match hlsBatchesSched afetch tr sched bs (k + 1) (i0 + b.length) fc' with
      | .error m => .error m
      | .ok cs => .ok (rs.filterMap id ++ cs)

/-- `downloadHLSSegments` under an explicit completion-order schedule for
its batch windows; everything outside the windows is as in
`downloadHLSSegmentsRun`. -/
def downloadHLSSegmentsRunSched (afetch : JSStr → FetchOutcome)
    (decrypt : DecryptOracle) (maxConcurrentDownloads : Nat)
    (sched : Nat → List Nat) (content baseUrl : JSStr)
    (videoFilename : Option JSStr) : DLResult :=
  let segments := parseM3U8Segments content baseUrl
  if segments.isEmpty then .err (strLit "No segments found")
  else
    let keyInfo := parseM3U8Key content baseUrl
    let decryptionKey : Option (List Nat) :=
      match keyInfo with
      | some ki =>
        match afetch ki.uri with
        | .ok b => some b
        | _ => none
      | none => none
    let tr := segTransform decrypt decryptionKey keyInfo
    match hlsBatchesSched afetch tr sched
        (chunksOf (effectiveBatchSize maxConcurrentDownloads) segments) 0 0 0 with
    | .error m => .err m
    | .ok chunks =>
      if chunks.isEmpty then
        .err (strLit "No segments downloaded — authentication may have expired")
      else .ok chunks (hlsOutputFilename videoFilename) segments.length

/-! ## Fixtures used by witnesses and counterexamples -/

/-- The result slot a segment contributes inside a batch window: the
transformed body for a successful fetch, `null` otherwise. -/
def hlsSlotResult (afetch : JSStr → FetchOutcome) (tr : List Nat → Nat → List Nat)
    (p : Nat) (s : HSeg) : Option (List Nat) :=
  match afetch s.url with
  | .ok d => some (tr d p)
  | _ => none

/-- Rendering of one `#EXTINF:<dur>,` tag line of a media playlist. -/
def extinfLine (d : JSStr) : JSStr := strLit "#EXTINF:" ++ d ++ strLit ","

/-- Rendering of a media playlist made of EXTINF/URI pairs, used to state
the shape of a valid media playlist for the parser claims. -/
def mediaPlaylistText (pairs : List (JSStr × JSStr)) : JSStr :=
  (pairs.map fun p => extinfLine p.1 ++ '\n' :: (p.2 ++ ['\n'])).flatten

/-- The shape hypotheses under which a list of EXTINF/URI pairs renders
into a valid media playlist: durations carry no newline or colon, URIs
are non-empty non-comment lines already in trimmed form. -/
def ValidPairs (pairs : List (JSStr × JSStr)) : Prop :=
  ∀ p ∈ pairs, (∀ c ∈ p.1, c ≠ '\n' ∧ c ≠ ':') ∧
    (p.2 ≠ [] ∧ p.2.head? ≠ some '#' ∧ (∀ c ∈ p.2, c ≠ '\n') ∧ trimJS p.2 = p.2)

/-- A four-segment media playlist (witness fixture). -/
def wSegText : JSStr :=
  strLit "#EXTINF:4,\nsA.ts\n#EXTINF:4,\nsB.ts\n#EXTINF:4,\nsC.ts\n#EXTINF:4,\nsD.ts"

/-- A six-segment media playlist (witness fixture). -/
def wSegText6 : JSStr :=
  strLit "#EXTINF:4,\ns0.ts\n#EXTINF:4,\ns1.ts\n#EXTINF:4,\ns2.ts\n#EXTINF:4,\ns3.ts\n#EXTINF:4,\ns4.ts\n#EXTINF:4,\ns5.ts"

/-- Base URL for the playlist fixtures. -/
def wBase : JSStr := strLit "https://h/p/index.m3u8"

/-- Fetch oracle where every URL succeeds with its character codes as
body. -/
def wFetchAllOk : JSStr → FetchOutcome := fun u => .ok (u.map Char.toNat)

/-- Fetch oracle failing exactly the second fixture segment. -/
def wFetchOneFail : JSStr → FetchOutcome := fun u =>
  if u = strLit "https://h/p/sB.ts" then .httpErr 404 else .ok (u.map Char.toNat)

/-- Fetch oracle failing every URL with HTTP 404. -/
def wFetchAllFail : JSStr → FetchOutcome := fun _ => .httpErr 404

/-- Identity decryption oracle for witnesses (never consulted when the
playlist carries no key directive). -/
def wDecrypt : DecryptOracle := fun d _ _ _ => d

/-- The completion-order schedule used by the order-independence witness:
the first window completes in reverse order. -/
def wSched : Nat → List Nat := fun k =>
  if k = 0 then [2, 1, 0] else if k = 1 then [0] else []

/-- DASH segment template fixture: three 2400/1-timescale segments. -/
def wTmpl : SegTemplate :=
  { initialization := none, media := some (strLit "seg-$Number$.m4s"),
    startNumber := 1, timescale := 1, duration := 2400 }

/-- DASH representation fixture carrying `wTmpl`. -/
def wRep : DQual :=
  { id := strLit "v1", url := strLit "https://h/p/video.mpd", bandwidth := 1000,
    isVideo := true, isAudio := false, segmentTemplate := some wTmpl }

/-- Fetch oracle for the DASH fixtures: the second generated segment
fails, every other URL succeeds. -/
def wDashFetch : JSStr → FetchOutcome := fun u =>
  if u = strLit "https://h/p/seg-2.m4s" then .httpErr 404 else .ok (u.map Char.toNat)

/-! ## List infrastructure lemmas -/

theorem chunksOf_nil (k : Nat) : chunksOf k ([] : List α) = [] := by
  simp only [chunksOf, List.length_nil, Nat.zero_add]
  rcases k with _ | k
  · simp
  · rw [Nat.div_eq_of_lt (by omega)]
    simp

theorem chunksOf_cons (k : Nat) (hk : 0 < k) (l : List α) (hl : l ≠ []) :
    chunksOf k l = l.take k :: chunksOf k (l.drop k) := by
  have hlen : 0 < l.length := List.length_pos.mpr hl
  unfold chunksOf
  have h1 : l.length + k - 1 = (l.length - 1) + k := by omega
  rw [h1, Nat.add_div_right _ hk, List.range_succ_eq_map, List.map_cons]
  have h0 : (l.drop (0 * k)).take k = l.take k := by simp
  rw [h0]
  congr 1
  have h2 : (l.drop k).length + k - 1 = (l.length - k) + k - 1 := by simp
  rw [h2, List.map_map]
  have h3 : (l.length - k + k - 1) / k = (l.length - 1) / k := by
    rcases Nat.le_total l.length k with h | h
    · have e1 : l.length - k = 0 := by omega
      rw [e1, Nat.div_eq_of_lt (by omega), Nat.div_eq_of_lt (by omega)]
    · congr 1
      omega
  rw [h3]
  apply List.map_congr_left
  intro i _
  simp only [Function.comp_apply]
  rw [show (i + 1) * k = k + i * k by ring, ← List.drop_drop]

theorem chunksOf_flatten (k : Nat) (hk : 0 < k) :
    ∀ (l : List α), (chunksOf k l).flatten = l
  | [] => by simp [chunksOf_nil]
  | a :: t => by
    rw [chunksOf_cons k hk _ (by simp), List.flatten_cons,
      chunksOf_flatten k hk ((a :: t).drop k), List.take_append_drop]
termination_by l => l.length
decreasing_by simp; omega

theorem idxMap_cons (f : Nat → α → β) (i : Nat) (a : α) (l : List α) :
    idxMap f i (a :: l) = f i a :: idxMap f (i + 1) l := rfl

theorem idxMap_append (f : Nat → α → β) :
    ∀ (l₁ l₂ : List α) (i : Nat),
      idxMap f i (l₁ ++ l₂) = idxMap f i l₁ ++ idxMap f (i + l₁.length) l₂
  | [], l₂, i => by simp [idxMap]
  | a :: t, l₂, i => by
    simp only [List.cons_append, idxMap_cons, idxMap_append f t l₂ (i + 1),
      List.length_cons]
    have h : i + 1 + t.length = i + (t.length + 1) := by omega
    rw [h]

theorem idxMap_map_const (g : α → β) : ∀ (l : List α) (i : Nat),
    idxMap (fun _ a => g a) i l = l.map g
  | [], _ => rfl
  | a :: t, i => by
    simp only [idxMap_cons, List.map_cons, idxMap_map_const g t (i + 1)]

theorem length_idxMap (f : Nat → α → β) : ∀ (l : List α) (i : Nat),
    (idxMap f i l).length = l.length
  | [], _ => rfl
  | a :: t, i => by simp [idxMap_cons, length_idxMap f t (i + 1)]

theorem idxMap_getElem? (f : Nat → α → β) : ∀ (l : List α) (i j : Nat),
    (idxMap f i l)[j]? = l[j]?.map fun a => f (i + j) a
  | [], _, j => by simp [idxMap]
  | a :: t, i, 0 => by simp [idxMap_cons]
  | a :: t, i, j + 1 => by
    simp only [idxMap_cons, List.getElem?_cons_succ, idxMap_getElem? f t (i + 1) j]
    have h : i + 1 + j = i + (j + 1) := by omega
    rw [h]

/-! ## Behaviour of the HLS batch loop -/

theorem hlsBatch_ok (afetch : JSStr → FetchOutcome) (tr : List Nat → Nat → List Nat)
    (i0 : Nat) :
    ∀ (b : List HSeg) (pos fc : Nat),
      (∀ s ∈ b, (afetch s.url).isThrown = false) →
      fc + countHttpFail afetch b ≤ 5 →
      hlsBatch afetch tr i0 b pos fc =
        .ok (idxMap (hlsSlotResult afetch tr) (i0 + pos) b, fc + countHttpFail afetch b)
  | [], pos, fc, _, _ => by simp [hlsBatch, countHttpFail, idxMap]
  | s :: t, pos, fc, hnt, hle => by
    have hsnt : (afetch s.url).isThrown = false := hnt s (by simp)
    have htnt : ∀ x ∈ t, (afetch x.url).isThrown = false := fun x hx => hnt x (by simp [hx])
    cases hfo : afetch s.url with
    | thrown m => simp [FetchOutcome.isThrown, hfo] at hsnt
    | httpErr st =>
      have hcnt : countHttpFail afetch (s :: t) = countHttpFail afetch t + 1 := by
        simp [countHttpFail, List.countP_cons, hfo, FetchOutcome.isHttpErr]
      rw [hcnt] at hle ⊢
      have hgt : ¬ fc + 1 > 5 := by omega
      simp only [hlsBatch, hfo, if_neg hgt]
      rw [hlsBatch_ok afetch tr i0 t (pos + 1) (fc + 1) htnt (by omega)]
      simp only [idxMap_cons, hlsSlotResult, hfo]
      have h1 : i0 + (pos + 1) = i0 + pos + 1 := by omega
      have h2 : fc + 1 + countHttpFail afetch t = fc + (countHttpFail afetch t + 1) := by
        omega
      rw [h1, h2]
    | ok data =>
      have hcnt : countHttpFail afetch (s :: t) = countHttpFail afetch t := by
        simp [countHttpFail, List.countP_cons, hfo, FetchOutcome.isHttpErr]
      rw [hcnt] at hle ⊢
      simp only [hlsBatch, hfo]
      rw [hlsBatch_ok afetch tr i0 t (pos + 1) fc htnt (by omega)]
      simp only [idxMap_cons, hlsSlotResult, hfo]
      have h1 : i0 + (pos + 1) = i0 + pos + 1 := by omega
      rw [h1]

theorem hlsBatch_budget (afetch : JSStr → FetchOutcome) (tr : List Nat → Nat → List Nat)
    (i0 : Nat) :
    ∀ (b : List HSeg) (pos fc : Nat),
      (∀ s ∈ b, (afetch s.url).isThrown = false) →
      fc ≤ 5 →
      5 < fc + countHttpFail afetch b →
      ∃ st, hlsBatch afetch tr i0 b pos fc = .error (tooManyFailuresMsg st)
  | [], pos, fc, _, hfc, hgt => by
    simp only [countHttpFail, List.countP_nil, Nat.add_zero] at hgt
    exact absurd hgt (by omega)
  | s :: t, pos, fc, hnt, hfc, hgt => by
    have hsnt : (afetch s.url).isThrown = false := hnt s (by simp)
    have htnt : ∀ x ∈ t, (afetch x.url).isThrown = false := fun x hx => hnt x (by simp [hx])
    cases hfo : afetch s.url with
    | thrown m => simp [FetchOutcome.isThrown, hfo] at hsnt
    | httpErr st =>
      have hcnt : countHttpFail afetch (s :: t) = countHttpFail afetch t + 1 := by
        simp [countHttpFail, List.countP_cons, hfo, FetchOutcome.isHttpErr]
      rw [hcnt] at hgt
      by_cases hb : fc + 1 > 5
      · exact ⟨st, by simp only [hlsBatch, hfo, if_pos hb]⟩
      · obtain ⟨st', hst'⟩ :=
          hlsBatch_budget afetch tr i0 t (pos + 1) (fc + 1) htnt (by omega) (by omega)
        exact ⟨st', by simp only [hlsBatch, hfo, if_neg hb, hst']⟩
    | ok data =>
      have hcnt : countHttpFail afetch (s :: t) = countHttpFail afetch t := by
        simp [countHttpFail, List.countP_cons, hfo, FetchOutcome.isHttpErr]
      rw [hcnt] at hgt
      obtain ⟨st', hst'⟩ :=
        hlsBatch_budget afetch tr i0 t (pos + 1) fc htnt hfc (by omega)
      exact ⟨st', by simp only [hlsBatch, hfo, hst']⟩

theorem hlsBatch_ok_inv (afetch : JSStr → FetchOutcome) (tr : List Nat → Nat → List Nat)
    (i0 : Nat) :
    ∀ (b : List HSeg) (pos fc : Nat) (rs : List (Option (List Nat))) (fc' : Nat),
      hlsBatch afetch tr i0 b pos fc = .ok (rs, fc') →
      (rs.filterMap id).length = countFetchOk afetch b
  | [], pos, fc, rs, fc', h => by
    simp only [hlsBatch, Except.ok.injEq, Prod.mk.injEq] at h
    simp [← h.1, countFetchOk]
  | s :: t, pos, fc, rs, fc', h => by
    cases hfo : afetch s.url with
    | thrown m =>
      simp only [hlsBatch, hfo] at h
      exact absurd h (by simp)
    | httpErr st =>
      have hcnt : countFetchOk afetch (s :: t) = countFetchOk afetch t := by
        simp [countFetchOk, List.countP_cons, hfo, FetchOutcome.isOk]
      simp only [hlsBatch, hfo] at h
      by_cases hb : fc + 1 > 5
      · rw [if_pos hb] at h
        exact absurd h (by simp)
      · rw [if_neg hb] at h
        cases hrec : hlsBatch afetch tr i0 t (pos + 1) (fc + 1) with
        | error m => rw [hrec] at h; exact absurd h (by simp)
        | ok p =>
          rw [hrec] at h
          simp only [Except.ok.injEq, Prod.mk.injEq] at h
          rw [← h.1, hcnt]
          have hi := hlsBatch_ok_inv afetch tr i0 t (pos + 1) (fc + 1) p.1 p.2
            (by rw [hrec])
          simpa using hi
    | ok data =>
      have hcnt : countFetchOk afetch (s :: t) = countFetchOk afetch t + 1 := by
        simp [countFetchOk, List.countP_cons, hfo, FetchOutcome.isOk]
      simp only [hlsBatch, hfo] at h
      cases hrec : hlsBatch afetch tr i0 t (pos + 1) fc with
      | error m => rw [hrec] at h; exact absurd h (by simp)
      | ok p =>
        rw [hrec] at h
        simp only [Except.ok.injEq, Prod.mk.injEq] at h
        rw [← h.1, hcnt]
        have hi := hlsBatch_ok_inv afetch tr i0 t (pos + 1) fc p.1 p.2 (by rw [hrec])
        simp only [List.filterMap_cons, id_eq, List.length_cons]
        omega

theorem countHttpFail_append (afetch : JSStr → FetchOutcome) (l₁ l₂ : List HSeg) :
    countHttpFail afetch (l₁ ++ l₂) = countHttpFail afetch l₁ + countHttpFail afetch l₂ := by
  simp [countHttpFail, List.countP_append]

theorem countFetchOk_append (afetch : JSStr → FetchOutcome) (l₁ l₂ : List HSeg) :
    countFetchOk afetch (l₁ ++ l₂) = countFetchOk afetch l₁ + countFetchOk afetch l₂ := by
  simp [countFetchOk, List.countP_append]

theorem hlsBatches_ok (afetch : JSStr → FetchOutcome) (tr : List Nat → Nat → List Nat) :
    ∀ (bs : List (List HSeg)) (i0 fc : Nat),
      (∀ s ∈ bs.flatten, (afetch s.url).isThrown = false) →
      fc + countHttpFail afetch bs.flatten ≤ 5 →
      hlsBatches afetch tr bs i0 fc =
        .ok ((idxMap (hlsSlotResult afetch tr) i0 bs.flatten).filterMap id)
  | [], i0, fc, _, _ => by simp [hlsBatches, idxMap]
  | b :: bs, i0, fc, hnt, hle => by
    rw [List.flatten_cons] at hnt hle ⊢
    rw [countHttpFail_append] at hle
    have hnb : ∀ s ∈ b, (afetch s.url).isThrown = false := fun s hs =>
      hnt s (List.mem_append_left _ hs)
    have hnbs : ∀ s ∈ bs.flatten, (afetch s.url).isThrown = false := fun s hs =>
      hnt s (List.mem_append_right _ hs)
    simp only [hlsBatches]
    rw [hlsBatch_ok afetch tr i0 b 0 fc hnb (by omega)]
    dsimp only
    rw [hlsBatches_ok afetch tr bs (i0 + b.length) (fc + countHttpFail afetch b) hnbs
      (by omega)]
    rw [idxMap_append, List.filterMap_append, Nat.add_zero]

theorem hlsBatches_budget (afetch : JSStr → FetchOutcome) (tr : List Nat → Nat → List Nat) :
    ∀ (bs : List (List HSeg)) (i0 fc : Nat),
      (∀ s ∈ bs.flatten, (afetch s.url).isThrown = false) →
      fc ≤ 5 →
      5 < fc + countHttpFail afetch bs.flatten →
      ∃ st, hlsBatches afetch tr bs i0 fc = .error (tooManyFailuresMsg st)
  | [], i0, fc, _, hfc, hgt => by
    simp only [List.flatten_nil, countHttpFail, List.countP_nil, Nat.add_zero] at hgt
    exact absurd hgt (by omega)
  | b :: bs, i0, fc, hnt, hfc, hgt => by
    rw [List.flatten_cons] at hnt hgt
    rw [countHttpFail_append] at hgt
    have hnb : ∀ s ∈ b, (afetch s.url).isThrown = false := fun s hs =>
      hnt s (List.mem_append_left _ hs)
    have hnbs : ∀ s ∈ bs.flatten, (afetch s.url).isThrown = false := fun s hs =>
      hnt s (List.mem_append_right _ hs)
    by_cases hb : 5 < fc + countHttpFail afetch b
    · obtain ⟨st, hst⟩ := hlsBatch_budget afetch tr i0 b 0 fc hnb hfc hb
      exact ⟨st, by simp only [hlsBatches, hst]⟩
    · push_neg at hb
      obtain ⟨st, hst⟩ := hlsBatches_budget afetch tr bs (i0 + b.length)
        (fc + countHttpFail afetch b) hnbs (by omega) (by omega)
      refine ⟨st, ?_⟩
      simp only [hlsBatches]
      rw [hlsBatch_ok afetch tr i0 b 0 fc hnb (by omega)]
      dsimp only
      rw [hst]

theorem hlsBatches_ok_inv (afetch : JSStr → FetchOutcome) (tr : List Nat → Nat → List Nat) :
    ∀ (bs : List (List HSeg)) (i0 fc : Nat) (cs : List (List Nat)),
      hlsBatches afetch tr bs i0 fc = .ok cs →
      cs.length = countFetchOk afetch bs.flatten
  | [], i0, fc, cs, h => by
    simp only [hlsBatches, Except.ok.injEq] at h
    simp [← h, countFetchOk]
  | b :: bs, i0, fc, cs, h => by
    simp only [hlsBatches] at h
    cases hb : hlsBatch afetch tr i0 b 0 fc with
    | error m => rw [hb] at h; exact absurd h (by simp)
    | ok p =>
      rw [hb] at h
      dsimp only at h
      cases hrec : hlsBatches afetch tr bs (i0 + b.length) p.2 with
      | error m =>
        rw [hrec] at h
        exact absurd h (by simp)
      | ok cs' =>
        rw [hrec] at h
        simp only [Except.ok.injEq] at h
        rw [← h, List.flatten_cons, countFetchOk_append, List.length_append]
        rw [hlsBatch_ok_inv afetch tr i0 b 0 fc p.1 p.2 (by rw [hb]),
          hlsBatches_ok_inv afetch tr bs (i0 + b.length) p.2 cs' hrec]

theorem effectiveBatchSize_pos (mc : Nat) : 0 < effectiveBatchSize mc := by
  unfold effectiveBatchSize
  split <;> omega

theorem countHttpFail_eq_zero_of_allOk (afetch : JSStr → FetchOutcome) (segs : List HSeg)
    (h : ∀ s ∈ segs, (afetch s.url).isOk = true) : countHttpFail afetch segs = 0 := by
  simp only [countHttpFail, List.countP_eq_zero]
  intro s hs
  have := h s hs
  cases hfo : afetch s.url <;>
    simp [hfo, FetchOutcome.isOk, FetchOutcome.isHttpErr] at this ⊢

theorem noThrown_of_allOk (afetch : JSStr → FetchOutcome) (segs : List HSeg)
    (h : ∀ s ∈ segs, (afetch s.url).isOk = true) :
    ∀ s ∈ segs, (afetch s.url).isThrown = false := by
  intro s hs
  have := h s hs
  cases hfo : afetch s.url <;>
    simp [hfo, FetchOutcome.isOk, FetchOutcome.isThrown] at this ⊢

theorem countOk_add_countFail_le (afetch : JSStr → FetchOutcome) :
    ∀ (segs : List HSeg),
      countFetchOk afetch segs + countHttpFail afetch segs ≤ segs.length
  | [] => by simp [countFetchOk, countHttpFail]
  | s :: t => by
    have ht := countOk_add_countFail_le afetch t
    have hok : countFetchOk afetch (s :: t) =
        countFetchOk afetch t + (if (afetch s.url).isOk then 1 else 0) := by
      simp [countFetchOk, List.countP_cons]
    have hfail : countHttpFail afetch (s :: t) =
        countHttpFail afetch t + (if (afetch s.url).isHttpErr then 1 else 0) := by
      simp [countHttpFail, List.countP_cons]
    have hdisj : ¬ ((afetch s.url).isOk = true ∧ (afetch s.url).isHttpErr = true) := by
      cases hfo : afetch s.url <;> simp [FetchOutcome.isOk, FetchOutcome.isHttpErr]
    rw [hok, hfail]
    simp only [List.length_cons]
    by_cases h1 : (afetch s.url).isOk = true <;> by_cases h2 : (afetch s.url).isHttpErr = true
    · exact absurd ⟨h1, h2⟩ hdisj
    all_goals simp [h1, h2]
    all_goals omega

theorem idxMap_slot_allOk (afetch : JSStr → FetchOutcome) (tr : List Nat → Nat → List Nat)
    (htr : ∀ d p, tr d p = d) :
    ∀ (l : List HSeg), (∀ s ∈ l, (afetch s.url).isOk = true) → ∀ i,
      idxMap (hlsSlotResult afetch tr) i l = l.map fun s => some (afetch s.url).bytesD
  | [], _, _ => rfl
  | s :: t, h, i => by
    have hs := h s (by simp)
    cases hfo : afetch s.url with
    | thrown m => simp [hfo, FetchOutcome.isOk] at hs
    | httpErr st => simp [hfo, FetchOutcome.isOk] at hs
    | ok data =>
      simp only [idxMap_cons, List.map_cons, hlsSlotResult, hfo, htr,
        FetchOutcome.bytesD]
      exact congrArg _ (idxMap_slot_allOk afetch tr htr t
        (fun x hx => h x (by simp [hx])) (i + 1))

/-! ## Run-level behaviour of `downloadHLSSegments` -/

theorem downloadHLSSegmentsRun_ok_inv (afetch : JSStr → FetchOutcome)
    (decrypt : DecryptOracle) (mc : Nat) (content baseUrl : JSStr)
    (vf : Option JSStr) (chunks : List (List Nat)) (fn : JSStr) (cnt : Nat)
    (h : downloadHLSSegmentsRun afetch decrypt mc content baseUrl vf = .ok chunks fn cnt) :
    cnt = (parseM3U8Segments content baseUrl).length ∧
      chunks.length = countFetchOk afetch (parseM3U8Segments content baseUrl) := by
  simp only [downloadHLSSegmentsRun] at h
  split at h
  · exact absurd h (by simp)
  · split at h
    · exact absurd h (by simp)
    · rename_i chunks' heq
      split at h
      · exact absurd h (by simp)
      · simp only [DLResult.ok.injEq] at h
        obtain ⟨h1, _, h3⟩ := h
        refine ⟨h3.symm, ?_⟩
        rw [← h1]
        have := hlsBatches_ok_inv afetch _ _ _ _ _ heq
        rw [this, chunksOf_flatten _ (effectiveBatchSize_pos mc) _]

theorem downloadHLSSegmentsRun_budget (afetch : JSStr → FetchOutcome)
    (decrypt : DecryptOracle) (mc : Nat) (content baseUrl : JSStr) (vf : Option JSStr)
    (hnt : ∀ s ∈ parseM3U8Segments content baseUrl, (afetch s.url).isThrown = false)
    (hgt : 5 < countHttpFail afetch (parseM3U8Segments content baseUrl)) :
    ∃ st, downloadHLSSegmentsRun afetch decrypt mc content baseUrl vf =
      .err (tooManyFailuresMsg st) := by
  have hlen : 6 ≤ (parseM3U8Segments content baseUrl).length := by
    have := List.countP_le_length
      (l := parseM3U8Segments content baseUrl)
      (p := fun s => (afetch s.url).isHttpErr)
    simp only [countHttpFail] at hgt
    omega
  have hne : (parseM3U8Segments content baseUrl).isEmpty = false := by
    cases hpe : parseM3U8Segments content baseUrl with
    | nil => rw [hpe] at hlen; simp at hlen
    | cons a t => simp
  have hflat : ∀ tr, ∃ st,
      hlsBatches afetch tr
        (chunksOf (effectiveBatchSize mc) (parseM3U8Segments content baseUrl)) 0 0 =
        .error (tooManyFailuresMsg st) := by
    intro tr
    apply hlsBatches_budget afetch tr _ _ _ _ (by omega)
    · rw [chunksOf_flatten _ (effectiveBatchSize_pos mc) _]
      omega
    · rw [chunksOf_flatten _ (effectiveBatchSize_pos mc) _]
      exact hnt
  obtain ⟨st, hst⟩ := hflat (segTransform decrypt
    (match parseM3U8Key content baseUrl with
      | some ki =>
        match afetch ki.uri with
        | .ok b => some b
        | _ => none
      | none => none)
    (parseM3U8Key content baseUrl))
  refine ⟨st, ?_⟩
  simp only [downloadHLSSegmentsRun, hne, Bool.false_eq_true, if_false]
  rw [hst]

/-! ## Order-independence of the batch windows -/

theorem hlsBatchSchedGo_allOk (afetch : JSStr → FetchOutcome)
    (tr : List Nat → Nat → List Nat) (i0 : Nat) (b : List HSeg)
    (hok : ∀ s ∈ b, (afetch s.url).isOk = true) :
    ∀ (order : List Nat) (slots : List (Option (Option (List Nat)))) (fc : Nat),
      hlsBatchSchedGo afetch tr i0 b order slots fc =
        .ok (order.foldl (fun sl j =>
          match b[j]? with
          | some s => sl.set j (some (some (tr (afetch s.url).bytesD (i0 + j))))
          | none => sl) slots, fc)
  | [], slots, fc => by simp [hlsBatchSchedGo]
  | j :: rest, slots, fc => by
    cases hbj : b[j]? with
    | none =>
      simp only [hlsBatchSchedGo, hbj, List.foldl_cons]
      exact hlsBatchSchedGo_allOk afetch tr i0 b hok rest slots fc
    | some s =>
      have hs : (afetch s.url).isOk = true := hok s (List.getElem?_mem hbj)
      cases hfo : afetch s.url with
      | thrown m => simp [hfo, FetchOutcome.isOk] at hs
      | httpErr st => simp [hfo, FetchOutcome.isOk] at hs
      | ok data =>
        simp only [hlsBatchSchedGo, hbj, hfo, List.foldl_cons, FetchOutcome.bytesD]
        exact hlsBatchSchedGo_allOk afetch tr i0 b hok rest _ fc

theorem foldlSet_length (b : List HSeg) (v : Nat → HSeg → Option (Option (List Nat))) :
    ∀ (order : List Nat) (slots : List (Option (Option (List Nat)))),
      (order.foldl (fun sl j =>
        match b[j]? with
        | some s => sl.set j (v j s)
        | none => sl) slots).length = slots.length
  | [], slots => rfl
  | j :: rest, slots => by
    simp only [List.foldl_cons]
    rw [foldlSet_length b v rest _]
    cases hbj : b[j]? <;> simp

theorem foldlSet_getElem? (b : List HSeg) (v : Nat → HSeg → Option (Option (List Nat))) :
    ∀ (order : List Nat) (slots : List (Option (Option (List Nat)))),
      slots.length = b.length → ∀ (j : Nat),
      (order.foldl (fun sl jj =>
        match b[jj]? with
        | some s => sl.set jj (v jj s)
        | none => sl) slots)[j]? =
      if j ∈ order ∧ j < b.length then b[j]?.map (v j) else slots[j]?
  | [], slots, hsl, j => by simp
  | jj :: rest, slots, hsl, j => by
    simp only [List.foldl_cons]
    have hstep : ∀ sl : List (Option (Option (List Nat))), sl.length = b.length →
        ((match b[jj]? with
          | some s => sl.set jj (v jj s)
          | none => sl) : List (Option (Option (List Nat)))).length = b.length := by
      intro sl h
      cases hbj : b[jj]? <;> simp [h]
    rw [foldlSet_getElem? b v rest _ (hstep slots hsl) j]
    by_cases hjr : j ∈ rest ∧ j < b.length
    · rw [if_pos hjr, if_pos ⟨by simp [hjr.1], hjr.2⟩]
    · rw [if_neg hjr]
      by_cases hjj : j = jj
      · subst hjj
        cases hbj : b[j]? with
        | none =>
          have hnl : ¬ j < b.length := by
            intro hlt
            rw [List.getElem?_eq_getElem hlt] at hbj
            simp at hbj
          rw [if_neg (by tauto)]
        | some s =>
          have hlt : j < b.length := by
            by_contra hge
            rw [List.getElem?_eq_none (by omega)] at hbj
            simp at hbj
          rw [if_pos ⟨by simp, hlt⟩]
          show (slots.set j (v j s))[j]? = Option.map (v j) (some s)
          rw [List.getElem?_set_self (by omega)]
          simp
      · cases hbj : b[jj]? with
        | none =>
          rw [if_neg (by
            intro hc
            rcases hc with ⟨hmem, hlt⟩
            rcases List.mem_cons.mp hmem with h | h
            · exact hjj h
            · exact hjr ⟨h, hlt⟩)]
        | some s =>
          show (slots.set jj (v jj s))[j]? = _
          rw [List.getElem?_set_ne (by omega)]
          rw [if_neg (by
            intro hc
            rcases hc with ⟨hmem, hlt⟩
            rcases List.mem_cons.mp hmem with h | h
            · exact hjj h
            · exact hjr ⟨h, hlt⟩)]

theorem hlsBatchSched_allOk (afetch : JSStr → FetchOutcome)
    (tr : List Nat → Nat → List Nat) (i0 : Nat) (b : List HSeg)
    (hok : ∀ s ∈ b, (afetch s.url).isOk = true)
    (order : List Nat) (horder : order.Perm (List.range b.length)) (fc : Nat) :
    hlsBatchSched afetch tr i0 b order fc =
      .ok (idxMap (hlsSlotResult afetch tr) i0 b, fc) := by
  unfold hlsBatchSched
  rw [hlsBatchSchedGo_allOk afetch tr i0 b hok]
  dsimp only
  congr 1
  refine congrArg (fun x => (x, fc)) ?_
  apply List.ext_getElem?
  intro j
  rw [List.getElem?_map]
  rw [foldlSet_getElem? b _ order (List.replicate _ none) (by simp) j]
  have hmem : j ∈ order ↔ j < b.length := by
    rw [horder.mem_iff, List.mem_range]
  by_cases hj : j < b.length
  · rw [if_pos ⟨hmem.mpr hj, hj⟩]
    rw [idxMap_getElem?, List.getElem?_eq_getElem hj]
    have hs : (afetch (b[j].url)).isOk = true := hok _ (List.getElem_mem hj)
    cases hfo : afetch (b[j].url) with
    | thrown m => simp [hfo, FetchOutcome.isOk] at hs
    | httpErr st => simp [hfo, FetchOutcome.isOk] at hs
    | ok data => simp [hlsSlotResult, hfo, FetchOutcome.bytesD]
  · rw [if_neg (by tauto)]
    rw [List.getElem?_eq_none (by simp; omega), idxMap_getElem?,
      List.getElem?_eq_none (by omega)]
    simp

theorem hlsBatchesSched_eq (afetch : JSStr → FetchOutcome)
    (tr : List Nat → Nat → List Nat) (sched : Nat → List Nat) :
    ∀ (bs : List (List HSeg)) (k i0 fc : Nat),
      (∀ s ∈ bs.flatten, (afetch s.url).isOk = true) →
      fc ≤ 5 →
      (∀ (j : Nat), j < bs.length → (sched (k + j)).Perm (List.range (bs[j]!.length))) →
      hlsBatchesSched afetch tr sched bs k i0 fc = hlsBatches afetch tr bs i0 fc
  | [], _, _, _, _, _, _ => by simp [hlsBatchesSched, hlsBatches]
  | b :: bs, k, i0, fc, hok, hfc, hsched => by
    rw [List.flatten_cons] at hok
    have hokb : ∀ s ∈ b, (afetch s.url).isOk = true := fun s hs =>
      hok s (List.mem_append_left _ hs)
    have hokbs : ∀ s ∈ bs.flatten, (afetch s.url).isOk = true := fun s hs =>
      hok s (List.mem_append_right _ hs)
    have hperm : (sched k).Perm (List.range b.length) := by
      have := hsched 0 (by simp)
      simpa using this
    have hnt := noThrown_of_allOk afetch b hokb
    have hcf := countHttpFail_eq_zero_of_allOk afetch b hokb
    have hrec := hlsBatchesSched_eq afetch tr sched bs (k + 1) (i0 + b.length) fc hokbs hfc
      (by
        intro j hj
        have := hsched (j + 1) (by simpa using Nat.succ_lt_succ hj)
        have harith : k + (j + 1) = k + 1 + j := by omega
        rw [harith] at this
        simpa using this)
    simp only [hlsBatchesSched, hlsBatches]
    rw [hlsBatchSched_allOk afetch tr i0 b hokb (sched k) hperm fc,
      hlsBatch_ok afetch tr i0 b 0 fc hnt (by rw [hcf]; omega)]
    simp [hcf, hrec]

theorem downloadHLSSegmentsRun_allOk (afetch : JSStr → FetchOutcome)
    (decrypt : DecryptOracle) (mc : Nat) (content baseUrl : JSStr) (vf : Option JSStr)
    (hne : parseM3U8Segments content baseUrl ≠ [])
    (hok : ∀ s ∈ parseM3U8Segments content baseUrl, (afetch s.url).isOk = true)
    (hkey : parseM3U8Key content baseUrl = none) :
    downloadHLSSegmentsRun afetch decrypt mc content baseUrl vf =
      .ok ((parseM3U8Segments content baseUrl).map fun s => (afetch s.url).bytesD)
        (hlsOutputFilename vf) (parseM3U8Segments content baseUrl).length := by
  have hnemp : (parseM3U8Segments content baseUrl).isEmpty = false := by
    cases hpe : parseM3U8Segments content baseUrl with
    | nil => exact absurd hpe hne
    | cons a t => simp
  have hflat : (chunksOf (effectiveBatchSize mc) (parseM3U8Segments content baseUrl)).flatten =
      parseM3U8Segments content baseUrl := chunksOf_flatten _ (effectiveBatchSize_pos mc) _
  have htr : ∀ d p, segTransform decrypt none none d p = d := fun d p => rfl
  have hokf : ∀ s ∈ (chunksOf (effectiveBatchSize mc)
      (parseM3U8Segments content baseUrl)).flatten, (afetch s.url).isOk = true := by
    rw [hflat]; exact hok
  have hbs := hlsBatches_ok afetch (segTransform decrypt none none)
    (chunksOf (effectiveBatchSize mc) (parseM3U8Segments content baseUrl)) 0 0
    (by rw [hflat]; exact noThrown_of_allOk afetch _ hok)
    (by rw [hflat, countHttpFail_eq_zero_of_allOk afetch _ hok]; omega)

  rw [hflat] at hbs
  rw [idxMap_slot_allOk afetch _ htr _ hok 0] at hbs
  have hfm : (List.filterMap id ((parseM3U8Segments content baseUrl).map fun s =>
      some (afetch s.url).bytesD)) =
      (parseM3U8Segments content baseUrl).map fun s => (afetch s.url).bytesD := by
    simp only [List.filterMap_map]
    exact List.filterMap_eq_map_iff_forall_eq_some.mpr fun x _ => rfl
  rw [hfm] at hbs
  have hcne : ((parseM3U8Segments content baseUrl).map fun s =>
      (afetch s.url).bytesD).isEmpty = false := by
    cases hpe : parseM3U8Segments content baseUrl with
    | nil => exact absurd hpe hne
    | cons a t => simp
  simp only [downloadHLSSegmentsRun, hnemp, Bool.false_eq_true, if_false, hkey]
  rw [hbs]
  simp only [hcne, Bool.false_eq_true, if_false]

theorem idxMap_slot_allOk_tr (afetch : JSStr → FetchOutcome)
    (tr : List Nat → Nat → List Nat) :
    ∀ (l : List HSeg), (∀ s ∈ l, (afetch s.url).isOk = true) → ∀ i,
      idxMap (hlsSlotResult afetch tr) i l =
        idxMap (fun p s => some (tr (afetch s.url).bytesD p)) i l
  | [], _, _ => rfl
  | s :: t, h, i => by
    have hs := h s (by simp)
    cases hfo : afetch s.url with
    | thrown m => simp [hfo, FetchOutcome.isOk] at hs
    | httpErr st => simp [hfo, FetchOutcome.isOk] at hs
    | ok data =>
      simp only [idxMap_cons, hlsSlotResult, hfo, FetchOutcome.bytesD]
      exact congrArg _ (idxMap_slot_allOk_tr afetch tr t
        (fun x hx => h x (by simp [hx])) (i + 1))

theorem filterMap_id_idxMap_some (g : Nat → α → β) :
    ∀ (l : List α) (i : Nat),
      (idxMap (fun p a => some (g p a)) i l).filterMap id = idxMap g i l
  | [], _ => rfl
  | a :: t, i => by
    simp only [idxMap_cons, List.filterMap_cons, id_eq]
    rw [filterMap_id_idxMap_some g t (i + 1)]

theorem downloadHLSSegmentsRun_allOk_tr (afetch : JSStr → FetchOutcome)
    (decrypt : DecryptOracle) (mc : Nat) (content baseUrl : JSStr) (vf : Option JSStr)
    (hne : parseM3U8Segments content baseUrl ≠ [])
    (hok : ∀ s ∈ parseM3U8Segments content baseUrl, (afetch s.url).isOk = true) :
    downloadHLSSegmentsRun afetch decrypt mc content baseUrl vf =
      .ok (idxMap (fun p s =>
          segTransform decrypt (hlsDecryptionKey afetch content baseUrl)
            (parseM3U8Key content baseUrl) (afetch s.url).bytesD p) 0
          (parseM3U8Segments content baseUrl))
        (hlsOutputFilename vf) (parseM3U8Segments content baseUrl).length := by
  have hnemp : (parseM3U8Segments content baseUrl).isEmpty = false := by
    cases hpe : parseM3U8Segments content baseUrl with
    | nil => exact absurd hpe hne
    | cons a t => simp
  have hflat : (chunksOf (effectiveBatchSize mc) (parseM3U8Segments content baseUrl)).flatten =
      parseM3U8Segments content baseUrl := chunksOf_flatten _ (effectiveBatchSize_pos mc) _
  have hbs := hlsBatches_ok afetch
    (segTransform decrypt
      (match parseM3U8Key content baseUrl with
        | some ki =>
          match afetch ki.uri with
          | .ok b => some b
          | _ => none
        | none => none)
      (parseM3U8Key content baseUrl))
    (chunksOf (effectiveBatchSize mc) (parseM3U8Segments content baseUrl)) 0 0
    (by rw [hflat]; exact noThrown_of_allOk afetch _ hok)
    (by rw [hflat, countHttpFail_eq_zero_of_allOk afetch _ hok]; omega)
  rw [hflat] at hbs
  rw [idxMap_slot_allOk_tr afetch _ _ hok 0] at hbs
  rw [filterMap_id_idxMap_some] at hbs
  have hcne : (idxMap (fun p s =>
      segTransform decrypt
        (match parseM3U8Key content baseUrl with
          | some ki =>
            match afetch ki.uri with
            | .ok b => some b
            | _ => none
          | none => none)
        (parseM3U8Key content baseUrl) (afetch s.url).bytesD p) 0
      (parseM3U8Segments content baseUrl)).isEmpty = false := by
    cases hc : idxMap (fun p s =>
        segTransform decrypt
          (match parseM3U8Key content baseUrl with
            | some ki =>
              match afetch ki.uri with
              | .ok b => some b
              | _ => none
            | none => none)
          (parseM3U8Key content baseUrl) (afetch s.url).bytesD p) 0
        (parseM3U8Segments content baseUrl) with
    | nil =>
      have hlen := congrArg List.length hc
      rw [length_idxMap] at hlen
      simp only [List.length_nil] at hlen
      exact absurd (List.length_eq_zero.mp hlen) hne
    | cons a t => simp
  simp only [downloadHLSSegmentsRun, hnemp, Bool.false_eq_true, if_false]
  rw [hbs]
  simp only [hcne, Bool.false_eq_true, if_false]
  rfl

theorem downloadHLSSegmentsRunSched_eq (afetch : JSStr → FetchOutcome)
    (decrypt : DecryptOracle) (mc : Nat) (sched : Nat → List Nat)
    (content baseUrl : JSStr) (vf : Option JSStr)
    (hok : ∀ s ∈ parseM3U8Segments content baseUrl, (afetch s.url).isOk = true)
    (hsched : ∀ (j : Nat),
      j < (chunksOf (effectiveBatchSize mc) (parseM3U8Segments content baseUrl)).length →
      (sched j).Perm (List.range
        ((chunksOf (effectiveBatchSize mc) (parseM3U8Segments content baseUrl))[j]!.length))) :
    downloadHLSSegmentsRunSched afetch decrypt mc sched content baseUrl vf =
      downloadHLSSegmentsRun afetch decrypt mc content baseUrl vf := by
  have hflat : (chunksOf (effectiveBatchSize mc) (parseM3U8Segments content baseUrl)).flatten =
      parseM3U8Segments content baseUrl := chunksOf_flatten _ (effectiveBatchSize_pos mc) _
  have heq := hlsBatchesSched_eq afetch
    (segTransform decrypt
      (match parseM3U8Key content baseUrl with
        | some ki =>
          match afetch ki.uri with
          | .ok b => some b
          | _ => none
        | none => none)
      (parseM3U8Key content baseUrl)) sched
    (chunksOf (effectiveBatchSize mc) (parseM3U8Segments content baseUrl)) 0 0 0
    (by rw [hflat]; exact hok)
    (by omega)
    (by simpa using hsched)
  simp only [downloadHLSSegmentsRunSched, downloadHLSSegmentsRun]
  rw [heq]

/-! ## Behaviour of the DASH batch loop -/

theorem dashBatch_allOk (afetch : JSStr → FetchOutcome) :
    ∀ (b : List JSStr), (∀ u ∈ b, (afetch u).isOk = true) →
      dashBatch afetch b = some (b.map fun u => (afetch u).bytesD)
  | [], _ => rfl
  | u :: t, h => by
    have hu := h u (by simp)
    cases hfo : afetch u with
    | thrown m => simp [hfo, FetchOutcome.isOk] at hu
    | httpErr st => simp [hfo, FetchOutcome.isOk] at hu
    | ok data =>
      simp only [dashBatch, hfo, List.map_cons, FetchOutcome.bytesD]
      rw [dashBatch_allOk afetch t (fun x hx => h x (by simp [hx]))]
      rfl

theorem dashBatch_none (afetch : JSStr → FetchOutcome) :
    ∀ (b : List JSStr), (∃ u ∈ b, (afetch u).isOk = false) →
      dashBatch afetch b = none
  | [], h => by simp at h
  | u :: t, h => by
    cases hfo : afetch u with
    | thrown m => simp [dashBatch, hfo]
    | httpErr st => simp [dashBatch, hfo]
    | ok data =>
      obtain ⟨x, hx, hxf⟩ := h
      rcases List.mem_cons.mp hx with rfl | hxt
      · simp [hfo, FetchOutcome.isOk] at hxf
      · simp only [dashBatch, hfo]
        rw [dashBatch_none afetch t ⟨x, hxt, hxf⟩]
        rfl

theorem dashBatches_eq (afetch : JSStr → FetchOutcome) :
    ∀ (bs : List (List JSStr)),
      dashBatches afetch bs =
        ((bs.takeWhile fun b => b.all fun u => (afetch u).isOk).map
          fun b => b.map fun u => (afetch u).bytesD).flatten
  | [] => rfl
  | b :: bs => by
    cases hall : b.all fun u => (afetch u).isOk with
    | true =>
      have hok : ∀ u ∈ b, (afetch u).isOk = true := by
        intro u hu
        exact List.all_eq_true.mp hall u hu
      simp only [dashBatches, dashBatch_allOk afetch b hok, List.takeWhile_cons, hall,
        List.map_cons, List.flatten_cons]
      rw [dashBatches_eq afetch bs]
      simp
    | false =>
      have hex : ∃ u ∈ b, (afetch u).isOk = false := by
        rcases List.all_eq_false.mp hall with ⟨u, hu, hnu⟩
        exact ⟨u, hu, by simpa using hnu⟩
      simp only [dashBatches, dashBatch_none afetch b hex, List.takeWhile_cons, hall,
        List.flatten_nil]
      rfl

/-! ## Lemmas about splitting and trimming playlist text -/

theorem splitOnChar_no_sep (sep : Char) :
    ∀ (s : JSStr), (∀ c ∈ s, c ≠ sep) → splitOnChar sep s = [s]
  | [], _ => rfl
  | a :: t, h => by
    have ha : a ≠ sep := h a (by simp)
    simp only [splitOnChar, if_neg ha]
    rw [splitOnChar_no_sep sep t (fun c hc => h c (by simp [hc]))]

theorem splitOnChar_append_cons (sep : Char) :
    ∀ (l rest : JSStr), (∀ c ∈ l, c ≠ sep) →
      splitOnChar sep (l ++ sep :: rest) = l :: splitOnChar sep rest
  | [], rest, _ => by simp [splitOnChar]
  | a :: t, rest, h => by
    have ha : a ≠ sep := h a (by simp)
    simp only [List.cons_append, splitOnChar, if_neg ha, List.append_eq]
    rw [splitOnChar_append_cons sep t rest (fun c hc => h c (by simp [hc]))]

theorem dropWhile_eq_self_of_head (p : Char → Bool) (s : JSStr) (a : Char)
    (hh : s.head? = some a) (hp : p a = false) : s.dropWhile p = s := by
  cases s with
  | nil => simp at hh
  | cons c t =>
    simp only [List.head?_cons, Option.some.injEq] at hh
    subst hh
    simp [List.dropWhile_cons, hp]

theorem trimJS_eq_self (s : JSStr) (a z : Char) (hh : s.head? = some a)
    (ha : isWSChar a = false) (hl : s.getLast? = some z) (hz : isWSChar z = false) :
    trimJS s = s := by
  unfold trimJS
  rw [dropWhile_eq_self_of_head isWSChar s a hh ha]
  rw [dropWhile_eq_self_of_head isWSChar s.reverse z (by rw [List.head?_reverse]; exact hl) hz]
  exact List.reverse_reverse s

theorem extinfLine_head? (d : JSStr) : (extinfLine d).head? = some '#' := rfl

theorem extinfLine_getLast? (d : JSStr) : (extinfLine d).getLast? = some ',' := by
  unfold extinfLine
  rw [show strLit "#EXTINF:" ++ d ++ strLit "," =
    (strLit "#EXTINF:" ++ d) ++ [','] from by simp [strLit]]
  simp

theorem trimJS_extinfLine (d : JSStr) : trimJS (extinfLine d) = extinfLine d :=
  trimJS_eq_self _ '#' ',' (extinfLine_head? d) (by decide)
    (extinfLine_getLast? d) (by decide)

theorem splitColon_extinfLine (d : JSStr) (hd : ∀ c ∈ d, c ≠ ':') :
    (splitOnChar ':' (extinfLine d)).getD 1 [] = d ++ [','] := by
  unfold extinfLine
  rw [show strLit "#EXTINF:" ++ d ++ strLit "," =
    strLit "#EXTINF" ++ ':' :: (d ++ [',']) from by simp [strLit]]
  rw [splitOnChar_append_cons ':' (strLit "#EXTINF") (d ++ [',']) (by decide)]
  rw [splitOnChar_no_sep ':' (d ++ [',']) (by
    intro c hc
    rcases List.mem_append.mp hc with h | h
    · exact hd c h
    · simp at h
      subst h
      decide)]
  rfl

theorem hashPrefix_false (pre : JSStr) (hpre : pre.head? = some '#') (u : JSStr)
    (hne : u ≠ []) (hh : u.head? ≠ some '#') : pre.isPrefixOf u = false := by
  cases pre with
  | nil => simp at hpre
  | cons p ps =>
    simp only [List.head?_cons, Option.some.injEq] at hpre
    subst hpre
    cases u with
    | nil => exact absurd rfl hne
    | cons c t =>
      simp only [List.head?_cons, ne_eq, Option.some.injEq] at hh
      simp only [List.isPrefixOf, Bool.and_eq_false_iff]
      left
      simp only [beq_eq_false_iff_ne, ne_eq]
      exact fun h => hh h.symm

theorem mem_extinfLine (d : JSStr) (c : Char) (hc : c ∈ extinfLine d) :
    c ∈ strLit "#EXTINF:" ∨ c ∈ d ∨ c = ',' := by
  unfold extinfLine at hc
  rcases List.mem_append.mp hc with h | h
  · rcases List.mem_append.mp h with h1 | h1
    · exact Or.inl h1
    · exact Or.inr (Or.inl h1)
  · right; right
    simpa [strLit] using h

theorem splitOnChar_mediaText :
    ∀ (pairs : List (JSStr × JSStr)),
      (∀ p ∈ pairs, (∀ c ∈ p.1, c ≠ '\n') ∧ (∀ c ∈ p.2, c ≠ '\n')) →
      splitOnChar '\n' (mediaPlaylistText pairs) =
        (pairs.map fun p => [extinfLine p.1, p.2]).flatten ++ [[]]
  | [], _ => rfl
  | (d, u) :: rest, h => by
    have hd : ∀ c ∈ d, c ≠ '\n' := (h (d, u) (by simp)).1
    have hu : ∀ c ∈ u, c ≠ '\n' := (h (d, u) (by simp)).2
    have hrest : ∀ p ∈ rest, (∀ c ∈ p.1, c ≠ '\n') ∧ (∀ c ∈ p.2, c ≠ '\n') :=
      fun p hp => h p (List.mem_cons_of_mem _ hp)
    have htext : mediaPlaylistText ((d, u) :: rest) =
        extinfLine d ++ '\n' :: (u ++ '\n' :: mediaPlaylistText rest) := by
      simp [mediaPlaylistText]
    rw [htext]
    rw [splitOnChar_append_cons '\n' (extinfLine d) _ (by
      intro c hc
      rcases mem_extinfLine d c hc with h1 | h1 | h1
      · exact (by decide : ∀ x ∈ strLit "#EXTINF:", x ≠ '\n') c h1
      · exact hd c h1
      · subst h1
        decide)]
    rw [splitOnChar_append_cons '\n' u _ hu]
    rw [splitOnChar_mediaText rest hrest]
    simp

theorem segsCollect_cons_extinf (base : JSStr) (cur : Option DecNum) (line : JSStr)
    (rest : List JSStr) (hp : (strLit "#EXTINF:").isPrefixOf line = true) :
    segsCollect base cur (line :: rest) =
      segsCollect base (parseFloatJS ((splitOnChar ':' line).getD 1 [])) rest := by
  rw [segsCollect, if_pos hp]

theorem segsCollect_cons_url (base : JSStr) (cur : Option DecNum) (line : JSStr)
    (rest : List JSStr) (h1 : (strLit "#EXTINF:").isPrefixOf line = false)
    (h2 : line.isEmpty = false) (h3 : (strLit "#").isPrefixOf line = false) :
    segsCollect base cur (line :: rest) =
      { url := resolveUrl base line, duration := cur } ::
        segsCollect base (some { num := 0, exp := 0 }) rest := by
  rw [segsCollect, if_neg (by simp [h1]), if_pos (by simp [h2, h3])]

theorem segsCollect_pairs (base : JSStr) :
    ∀ (pairs : List (JSStr × JSStr)) (cur : Option DecNum),
      (∀ p ∈ pairs, (∀ c ∈ p.1, c ≠ ':') ∧ p.2 ≠ [] ∧ p.2.head? ≠ some '#') →
      segsCollect base cur ((pairs.map fun p => [extinfLine p.1, p.2]).flatten ++ [[]]) =
        pairs.map fun p =>
          { url := resolveUrl base p.2, duration := parseFloatJS (p.1 ++ [',']) }
  | [], cur, _ => by simp [segsCollect]
  | (d, u) :: rest, cur, h => by
    have hd : ∀ c ∈ d, c ≠ ':' := (h (d, u) (by simp)).1
    have hune : u ≠ [] := (h (d, u) (by simp)).2.1
    have huh : u.head? ≠ some '#' := (h (d, u) (by simp)).2.2
    have hrest : ∀ p ∈ rest, (∀ c ∈ p.1, c ≠ ':') ∧ p.2 ≠ [] ∧ p.2.head? ≠ some '#' :=
      fun p hp => h p (List.mem_cons_of_mem _ hp)
    have hlines : ((((d, u) :: rest).map fun p => [extinfLine p.1, p.2]).flatten ++ [[]] :
        List JSStr) =
        extinfLine d :: u :: ((rest.map fun p => [extinfLine p.1, p.2]).flatten ++ [[]]) := by
      simp
    rw [hlines]
    have hpre : (strLit "#EXTINF:").isPrefixOf (extinfLine d) = true := by
      apply List.isPrefixOf_iff_prefix.mpr
      unfold extinfLine
      rw [List.append_assoc]
      exact List.prefix_append _ _
    have hpreu : (strLit "#EXTINF:").isPrefixOf u = false :=
      hashPrefix_false _ (by decide) u hune huh
    have hhashu : (strLit "#").isPrefixOf u = false :=
      hashPrefix_false _ (by decide) u hune huh
    have huneb : u.isEmpty = false := by
      cases u with
      | nil => exact absurd rfl hune
      | cons c t => rfl
    rw [segsCollect_cons_extinf base cur _ _ hpre, splitColon_extinfLine d hd,
      segsCollect_cons_url base _ _ _ hpreu huneb hhashu,
      segsCollect_pairs base rest (some { num := 0, exp := 0 }) hrest]
    simp

theorem parseM3U8Segments_pairs (base : JSStr) (pairs : List (JSStr × JSStr))
    (h : ValidPairs pairs) :
    parseM3U8Segments (mediaPlaylistText pairs) base =
      pairs.map fun p =>
        { url := resolveUrl base p.2, duration := parseFloatJS (p.1 ++ [',']) } := by
  unfold parseM3U8Segments
  have hh1 : ∀ p ∈ pairs, (∀ c ∈ p.1, c ≠ '\n') ∧ (∀ c ∈ p.2, c ≠ '\n') := by
    intro p hp
    exact ⟨fun c hc => ((h p hp).1 c hc).1, fun c hc => (h p hp).2.2.2.1 c hc⟩
  rw [splitOnChar_mediaText pairs hh1]
  have hmap : (((pairs.map fun p : JSStr × JSStr => [extinfLine p.1, p.2]).flatten ++
        [[]]).map trimJS : List JSStr) =
      (pairs.map fun p : JSStr × JSStr => [extinfLine p.1, p.2]).flatten ++ [[]] := by
    rw [List.map_append]
    congr 1
    rw [List.map_flatten]
    congr 1
    rw [List.map_map]
    apply List.map_congr_left
    intro p hp
    simp only [Function.comp_apply, List.map_cons, List.map_nil]
    rw [trimJS_extinfLine, (h p hp).2.2.2.2]
  rw [hmap]
  have hh2 : ∀ p ∈ pairs, (∀ c ∈ p.1, c ≠ ':') ∧ p.2 ≠ [] ∧ p.2.head? ≠ some '#' := by
    intro p hp
    exact ⟨fun c hc => ((h p hp).1 c hc).2, (h p hp).2.1, (h p hp).2.2.1⟩
  exact segsCollect_pairs base pairs _ hh2

/-! ## Behaviour of `sanitizeFilename` -/

theorem collapseWSGo_mem :
    ∀ (s : JSStr) (flag : Bool) (c : Char), c ∈ collapseWSGo flag s →
      c = ' ' ∨ (c ∈ s ∧ isWSChar c = false)
  | [], flag, c, h => by simp [collapseWSGo] at h
  | a :: t, flag, c, h => by
    by_cases hws : isWSChar a = true
    · cases flag with
      | true =>
        simp only [collapseWSGo, hws, if_pos rfl, if_true] at h
        rcases collapseWSGo_mem t true c h with h1 | ⟨h1, h2⟩
        · exact Or.inl h1
        · exact Or.inr ⟨List.mem_cons_of_mem _ h1, h2⟩
      | false =>
        simp only [collapseWSGo, hws, if_true] at h
        rcases List.mem_cons.mp h with rfl | h1
        · exact Or.inl rfl
        · rcases collapseWSGo_mem t true c h1 with h2 | ⟨h2, h3⟩
          · exact Or.inl h2
          · exact Or.inr ⟨List.mem_cons_of_mem _ h2, h3⟩
    · rw [show collapseWSGo flag (a :: t) = a :: collapseWSGo false t from by
        simp [collapseWSGo, hws]] at h
      rcases List.mem_cons.mp h with rfl | h1
      · exact Or.inr ⟨List.mem_cons_self _ _, by simpa using hws⟩
      · rcases collapseWSGo_mem t false c h1 with h2 | ⟨h2, h3⟩
        · exact Or.inl h2
        · exact Or.inr ⟨List.mem_cons_of_mem _ h2, h3⟩

theorem collapseWSGo_head_nonWS :
    ∀ (s : JSStr) (d : Char), (collapseWSGo true s).head? = some d → isWSChar d = false
  | [], d, h => by simp [collapseWSGo] at h
  | a :: t, d, h => by
    by_cases hws : isWSChar a = true
    · simp only [collapseWSGo, hws, if_pos rfl, if_true] at h
      exact collapseWSGo_head_nonWS t d h
    · simp [collapseWSGo, hws] at h
      subst h
      simpa using hws

theorem collapseWSGo_chain :
    ∀ (s : JSStr) (flag : Bool),
      List.Chain' (fun a b => ¬ (isWSChar a = true ∧ isWSChar b = true))
        (collapseWSGo flag s)
  | [], flag => by simp [collapseWSGo]
  | a :: t, flag => by
    by_cases hws : isWSChar a = true
    · cases flag with
      | true =>
        simp only [collapseWSGo, hws, if_pos rfl, if_true]
        exact collapseWSGo_chain t true
      | false =>
        simp only [collapseWSGo, hws, if_true]
        refine List.chain'_cons'.mpr ⟨?_, collapseWSGo_chain t true⟩
        intro b hb
        have := collapseWSGo_head_nonWS t b hb
        simp [this]
    · rw [show collapseWSGo flag (a :: t) = a :: collapseWSGo false t from by
        simp [collapseWSGo, hws]]
      refine List.chain'_cons'.mpr ⟨?_, collapseWSGo_chain t false⟩
      intro b hb
      simp [hws]

theorem trimJS_within (s : JSStr) : trimJS s <:+: s := by
  unfold trimJS
  have h1 : s.dropWhile isWSChar <:+ s := List.dropWhile_suffix isWSChar
  have h2 : (s.dropWhile isWSChar).reverse.dropWhile isWSChar <:+
      (s.dropWhile isWSChar).reverse := List.dropWhile_suffix isWSChar
  have h3 : ((s.dropWhile isWSChar).reverse.dropWhile isWSChar).reverse <+:
      s.dropWhile isWSChar := by
    obtain ⟨t, ht⟩ := h2
    refine ⟨t.reverse, ?_⟩
    rw [← List.reverse_append, ht, List.reverse_reverse]
  exact h3.isInfix.trans h1.isInfix

theorem sanitizeFilename_within (name : JSStr) :
    sanitizeFilename name <:+:
      collapseWS (name.map fun c => if isBadFileChar c then '_' else c) := by
  unfold sanitizeFilename sanitizePreCap
  exact (List.take_prefix _ _).isInfix.trans (trimJS_within _)

theorem sanitizeFilename_no_bad (name : JSStr) (c : Char)
    (h : c ∈ sanitizeFilename name) : isBadFileChar c = false := by
  have hc := (sanitizeFilename_within name).subset h
  rcases collapseWSGo_mem _ false c hc with rfl | ⟨h1, _⟩
  · decide
  · rcases List.mem_map.mp h1 with ⟨a, _, rfl⟩
    by_cases hba : isBadFileChar a = true
    · rw [if_pos hba]
      decide
    · rw [if_neg hba]
      simpa using hba

theorem sanitizeFilename_ws_space (name : JSStr) (c : Char)
    (h : c ∈ sanitizeFilename name) (hws : isWSChar c = true) : c = ' ' := by
  have hc := (sanitizeFilename_within name).subset h
  rcases collapseWSGo_mem _ false c hc with rfl | ⟨_, h2⟩
  · rfl
  · rw [hws] at h2
    exact absurd h2 (by simp)

theorem sanitizeFilename_chain (name : JSStr) :
    List.Chain' (fun a b => ¬ (isWSChar a = true ∧ isWSChar b = true))
      (sanitizeFilename name) :=
  List.Chain'.infix (collapseWSGo_chain _ false) (sanitizeFilename_within name)

theorem sanitizeFilename_length (name : JSStr) : (sanitizeFilename name).length ≤ 200 := by
  unfold sanitizeFilename
  rw [List.length_take]
  omega

theorem collapseWSGo_all_nonWS :
    ∀ (b : JSStr), (∀ c ∈ b, isWSChar c = false) → ∀ (flag : Bool),
      collapseWSGo flag b = b
  | [], _, flag => rfl
  | a :: t, h, flag => by
    have ha : isWSChar a = false := h a (by simp)
    rw [show collapseWSGo flag (a :: t) = a :: collapseWSGo false t from by
      simp [collapseWSGo, ha]]
    rw [collapseWSGo_all_nonWS t (fun c hc => h c (List.mem_cons_of_mem _ hc)) false]

theorem collapseWSGo_append_nonWS (b : JSStr) (hb : b ≠ [])
    (hws : ∀ c ∈ b, isWSChar c = false) :
    ∀ (a : JSStr) (flag : Bool),
      collapseWSGo flag (a ++ b) = collapseWSGo flag a ++ b
  | [], flag => by
    simp only [List.nil_append, collapseWSGo]
    exact collapseWSGo_all_nonWS b hws flag
  | a :: t, flag => by
    by_cases ha : isWSChar a = true
    · cases flag with
      | true =>
        rw [show collapseWSGo true ((a :: t) ++ b) = collapseWSGo true (t ++ b) from by
          simp [collapseWSGo, ha]]
        rw [show collapseWSGo true (a :: t) = collapseWSGo true t from by
          simp [collapseWSGo, ha]]
        exact collapseWSGo_append_nonWS b hb hws t true
      | false =>
        rw [show collapseWSGo false ((a :: t) ++ b) =
            ' ' :: collapseWSGo true (t ++ b) from by simp [collapseWSGo, ha]]
        rw [show collapseWSGo false (a :: t) = ' ' :: collapseWSGo true t from by
          simp [collapseWSGo, ha]]
        rw [collapseWSGo_append_nonWS b hb hws t true]
        rfl
    · rw [show collapseWSGo flag ((a :: t) ++ b) = a :: collapseWSGo false (t ++ b) from by
        simp [collapseWSGo, ha]]
      rw [show collapseWSGo flag (a :: t) = a :: collapseWSGo false t from by
        simp [collapseWSGo, ha]]
      rw [collapseWSGo_append_nonWS b hb hws t false]
      rfl

theorem dropWhile_append_nonWS (a b : JSStr) (hb : b ≠ [])
    (hws : ∀ c ∈ b, isWSChar c = false) :
    (a ++ b).dropWhile isWSChar = a.dropWhile isWSChar ++ b := by
  rw [List.dropWhile_append]
  by_cases he : (a.dropWhile isWSChar).isEmpty
  · rw [if_pos he]
    have hbd : b.dropWhile isWSChar = b := by
      cases b with
      | nil => rfl
      | cons c t =>
        exact dropWhile_eq_self_of_head isWSChar (c :: t) c rfl (hws c (by simp))
    rw [hbd]
    have : a.dropWhile isWSChar = [] := by
      cases hcase : a.dropWhile isWSChar with
      | nil => rfl
      | cons x xs => rw [hcase] at he; simp at he
    rw [this]
    rfl
  · rw [if_neg he]

theorem trimJS_append_nonWS (a b : JSStr) (hb : b ≠ [])
    (hws : ∀ c ∈ b, isWSChar c = false) :
    trimJS (a ++ b) = a.dropWhile isWSChar ++ b := by
  unfold trimJS
  rw [dropWhile_append_nonWS a b hb hws]
  have hz : ∃ z zs, b.reverse = z :: zs := by
    cases hbr : b.reverse with
    | nil =>
      exact absurd (by simpa using congrArg List.reverse hbr) hb
    | cons z zs => exact ⟨z, zs, rfl⟩
  obtain ⟨z, zs, hzz⟩ := hz
  have hzmem : z ∈ b := by
    have : z ∈ b.reverse := by rw [hzz]; simp
    exact List.mem_reverse.mp this
  rw [List.reverse_append]
  have hrev : (b.reverse ++ (a.dropWhile isWSChar).reverse).dropWhile isWSChar =
      b.reverse ++ (a.dropWhile isWSChar).reverse := by
    apply dropWhile_eq_self_of_head isWSChar _ z
    · rw [hzz]
      rfl
    · exact hws z hzmem
  rw [hrev, List.reverse_append, List.reverse_reverse, List.reverse_reverse]

theorem sanitizePreCap_append_nonWS (a b : JSStr) (hb : b ≠ [])
    (hws : ∀ c ∈ b, isWSChar c = false) (hbad : ∀ c ∈ b, isBadFileChar c = false) :
    sanitizePreCap (a ++ b) =
      (collapseWS (a.map fun c => if isBadFileChar c then '_' else c)).dropWhile isWSChar
        ++ b := by
  unfold sanitizePreCap
  rw [List.map_append]
  have hbmap : (b.map fun c => if isBadFileChar c then '_' else c) = b := by
    rw [show b.map (fun c => if isBadFileChar c then '_' else c) =
        b.map id from List.map_congr_left fun c hc => by simp [hbad c hc]]
    exact List.map_id b
  rw [hbmap]
  unfold collapseWS
  rw [collapseWSGo_append_nonWS b hb hws _ false]
  exact trimJS_append_nonWS _ b hb hws

/-! ## Claim theorems -/

/-- C3 counterexample: in the DASH template download, a single failed
segment below any budget does not get skipped — it ends the retrieval.
With windows of size 1 over three generated segments where only the
second fails, the run keeps only the first segment's bytes and never
retrieves the third, even though fetching the third would succeed; the
claim's prediction (skip segment 2, continue with segment 3, assembling
two chunks) is false. -/
theorem c3_counterexample :
    downloadDASHSegmentsRun wDashFetch 1 wRep (strLit "https://h/p/video.mpd") none =
      some (.ok [(strLit "https://h/p/seg-1.m4s").map Char.toNat]
        (dashOutputFilename none) 1) ∧
    wDashFetch (strLit "https://h/p/seg-3.m4s") =
      .ok ((strLit "https://h/p/seg-3.m4s").map Char.toNat) ∧
    some (DLResult.ok [(strLit "https://h/p/seg-1.m4s").map Char.toNat]
        (dashOutputFilename none) 1) ≠
      some (DLResult.ok [(strLit "https://h/p/seg-1.m4s").map Char.toNat,
        (strLit "https://h/p/seg-3.m4s").map Char.toNat] (dashOutputFilename none) 2) := by
  refine ⟨by decide, by decide, by decide⟩

/-- C3 (amended): the DASH segment loop has no failure budget and no
per-segment skipping: the collected chunks are exactly the bodies of the
longest prefix of batch windows in which every fetch succeeded — the
first window containing any failure ends the retrieval, discarding that
whole window and everything after it. -/
theorem c3_amended (afetch : JSStr → FetchOutcome) (bs : List (List JSStr)) :
    dashBatches afetch bs =
      ((bs.takeWhile fun b => b.all fun u => (afetch u).isOk).map
        fun b => b.map fun u => (afetch u).bytesD).flatten :=
  dashBatches_eq afetch bs

/-- C4 counterexample: a DASH acquisition whose manifest parses to a
non-empty representation list and whose `selectedQuality` matches no
representation id or URL does not fail with `Quality not found` — the
dispatch falls back to the default best-quality choice and hands off a
direct download. -/
theorem c4_counterexample :
    downloadDASHDispatch
      [(⟨strLit "v1", strLit "https://cdn/a.mp4", 1000, true, false, none⟩ : DQual)]
      (strLit "https://cdn/m.mpd") (some (strLit "zzz")) =
      .direct (strLit "https://cdn/a.mp4") ∧
    (∀ q ∈ [(⟨strLit "v1", strLit "https://cdn/a.mp4", 1000, true, false, none⟩ : DQual)],
      q.url ≠ strLit "zzz" ∧ q.id ≠ strLit "zzz") ∧
    DashAction.direct (strLit "https://cdn/a.mp4") ≠
      .err (strLit "Quality not found") := by
  refine ⟨by decide, by decide, by decide⟩

/-- C4 (amended): only the HLS path fails with `Quality not found` when a
non-empty master parse carries a truthy `selectedQuality` matching no
representation URL; the DASH path ignores an unmatched `selectedQuality`
entirely and behaves exactly as if none had been requested. -/
theorem c4_amended :
    (∀ (qualities : List HQual) (s : JSStr), qualities ≠ [] → s ≠ [] →
      (∀ q ∈ qualities, q.url ≠ s) →
      downloadHLSMasterStep qualities (some s) = .err (strLit "Quality not found")) ∧
    (∀ (qualities : List DQual) (videoUrl s : JSStr),
      (∀ q ∈ qualities, q.url ≠ s ∧ q.id ≠ s) →
      downloadDASHDispatch qualities videoUrl (some s) =
        downloadDASHDispatch qualities videoUrl none) := by
  constructor
  · intro qualities s hne hs hnomatch
    have hne' : qualities.isEmpty = false := by
      cases qualities with
      | nil => exact absurd rfl hne
      | cons a t => rfl
    have hs' : s.isEmpty = false := by
      cases s with
      | nil => exact absurd rfl hs
      | cons a t => rfl
    have hfind : (qualities.find? fun q => q.url = s) = none := by
      apply List.find?_eq_none.mpr
      intro q hq
      simpa using hnomatch q hq
    simp [downloadHLSMasterStep, hne', hs', hfind]
  · intro qualities videoUrl s hnomatch
    by_cases hs : s.isEmpty
    · simp [downloadDASHDispatch, hs]
    · have hfind : (qualities.find? fun q => q.url = s || q.id = s) = none := by
        apply List.find?_eq_none.mpr
        intro q hq
        have hq2 := hnomatch q hq
        simp [hq2.1, hq2.2]
      simp [downloadDASHDispatch, hs, hfind]

/-- C4 witness: the amended claim at concrete inputs — an HLS master with
one variant and an unmatched requested quality fails with
`Quality not found`, and the DASH dispatch with an unmatched requested
quality equals the dispatch with no requested quality. -/
theorem c4_witness :
    downloadHLSMasterStep
      [{ url := strLit "https://h/v1.m3u8", bandwidth := 1000, resolution := none,
         height := 0, label := strLit "1000kbps" }] (some (strLit "zzz")) =
      .err (strLit "Quality not found") ∧
    downloadDASHDispatch
      [{ id := strLit "v1", url := strLit "https://cdn/a.mp4", bandwidth := 1000,
         isVideo := true, isAudio := false, segmentTemplate := none }]
      (strLit "https://cdn/m.mpd") (some (strLit "zzz")) =
      downloadDASHDispatch
        [{ id := strLit "v1", url := strLit "https://cdn/a.mp4", bandwidth := 1000,
           isVideo := true, isAudio := false, segmentTemplate := none }]
        (strLit "https://cdn/m.mpd") none :=
  ⟨c4_amended.1 _ _ (by decide) (by decide) (by decide),
   c4_amended.2 _ _ _ (by decide)⟩

/-- C5: evaluation of the header-capture merge at the failing input.  The
stored context already holds a non-empty cookie `sess=old` and a captured
custom header `x-auth`; a new streaming request carrying cookie
`sess=new` and custom header `x-token` is captured.  The merge
`{ ...existing, ...captured }` lets the new values win: the stored cookie
is replaced (not preserved as the spec and the code's own comment say),
and the whole custom-header map is replaced, losing `x-auth`. -/
theorem c5_spread_overwrites :
    captureAndMerge
      { cookie := some (strLit "sess=old"), authorization := none, referer := none,
        origin := none, custom := some [(strLit "x-auth", strLit "old")] }
      [(strLit "Cookie", strLit "sess=new"), (strLit "x-token", strLit "tok2")]
      (strLit "https://cdn.example/video.m3u8") =
      { cookie := some (strLit "sess=new"), authorization := none,
        referer := some (strLit "https://cdn.example/"), origin := none,
        custom := some [(strLit "x-token", strLit "tok2")] } ∧
    (captureAndMerge
      { cookie := some (strLit "sess=old"), authorization := none, referer := none,
        origin := none, custom := some [(strLit "x-auth", strLit "old")] }
      [(strLit "Cookie", strLit "sess=new"), (strLit "x-token", strLit "tok2")]
      (strLit "https://cdn.example/video.m3u8")).cookie ≠ some (strLit "sess=old") ∧
    (strLit "x-auth", strLit "old") ∉
      ((captureAndMerge
        { cookie := some (strLit "sess=old"), authorization := none, referer := none,
          origin := none, custom := some [(strLit "x-auth", strLit "old")] }
        [(strLit "Cookie", strLit "sess=new"), (strLit "x-token", strLit "tok2")]
        (strLit "https://cdn.example/video.m3u8")).custom.getD []) := by
  refine ⟨by decide, by decide, by decide⟩

/-- C6 counterexample: with the documented defaults (`duration` 0,
`timescale` 1) the per-segment duration is `0`, the JavaScript bound
`Math.ceil(7200 / 0)` is `Infinity`, and the generation loop is unbounded
(modelled by `none`): the claimed termination with a finite bounded list
fails at exactly the default values. -/
theorem c6_counterexample :
    dashSegmentUrls
      { initialization := none, media := some (strLit "chunk-$Number$.m4s"),
        startNumber := 1, timescale := 1, duration := 0 }
      (strLit "v1") (strLit "https://h/p/video.mpd") = none ∧
    dashMaxSegments
      { initialization := none, media := some (strLit "chunk-$Number$.m4s"),
        startNumber := 1, timescale := 1, duration := 0 } = none := by
  refine ⟨by decide, by decide⟩

/-- C6 (amended): whenever the template carries positive `duration` and
`timescale`, segment-URL generation terminates and produces exactly the
ceiling of `7200 / (duration / timescale)` URLs; at the documented
default `duration = 0` the bound is infinite and the loop unbounded. -/
theorem c6_amended (tmpl : SegTemplate) (repId videoUrl : JSStr)
    (hdur : tmpl.duration ≠ 0) (hts : tmpl.timescale ≠ 0) :
    ∃ l, dashSegmentUrls tmpl repId videoUrl = some l ∧
      l.length = (7200 * tmpl.timescale + tmpl.duration - 1) / tmpl.duration := by
  unfold dashSegmentUrls dashMaxSegments
  rw [if_neg hts, if_neg hdur]
  exact ⟨_, rfl, by simp⟩

/-- C6 witness: the amended claim at the fixture template (2400-unit
segments, timescale 1): generation yields exactly three URLs. -/
theorem c6_witness :
    ∃ l, dashSegmentUrls wTmpl (strLit "v1") (strLit "https://h/p/video.mpd") = some l ∧
      l.length = (7200 * wTmpl.timescale + wTmpl.duration - 1) / wTmpl.duration :=
  c6_amended wTmpl (strLit "v1") (strLit "https://h/p/video.mpd")
    (by decide) (by decide)

/-- C2 counterexample: a six-segment playlist whose every fetch returns
HTTP 404 exceeds the budget of 5 during the second window; the run is
aborted and the partial result discarded, but the error the run ends with
is `Too many segment failures (404)` — not the
`authentication may have expired` message, which the code emits only when
the loop completes with zero retrieved segments. -/
theorem c2_counterexample :
    downloadHLSSegmentsRun wFetchAllFail wDecrypt 3 wSegText6 wBase none =
      .err (tooManyFailuresMsg 404) ∧
    tooManyFailuresMsg 404 ≠
      strLit "No segments downloaded — authentication may have expired" := by
  refine ⟨by decide, by decide⟩

/-- C2 (amended): once the number of failed segment fetches exceeds the
budget of 5 (and no fetch throws outright), the whole HLS retrieval is
aborted: the partial result is discarded, no file is saved, and the run
ends with the error `Too many segment failures (status)`.  (The
`authentication may have expired` diagnosis belongs to the
zero-segments-retrieved case, not to the budget abort.) -/
theorem c2_amended (afetch : JSStr → FetchOutcome) (decrypt : DecryptOracle)
    (mc : Nat) (content baseUrl : JSStr) (vf : Option JSStr)
    (hnt : ∀ s ∈ parseM3U8Segments content baseUrl, (afetch s.url).isThrown = false)
    (hgt : 5 < countHttpFail afetch (parseM3U8Segments content baseUrl)) :
    ∃ st, downloadHLSSegmentsRun afetch decrypt mc content baseUrl vf =
      .err (tooManyFailuresMsg st) :=
  downloadHLSSegmentsRun_budget afetch decrypt mc content baseUrl vf hnt hgt

/-- C2 witness: the amended claim at the all-404 six-segment fixture. -/
theorem c2_witness :
    ∃ st, downloadHLSSegmentsRun wFetchAllFail wDecrypt 3 wSegText6 wBase none =
      .err (tooManyFailuresMsg st) :=
  c2_amended wFetchAllFail wDecrypt 3 wSegText6 wBase none (by decide) (by decide)

/-- C10: whenever an HLS segmented download completes successfully, the
reported `segmentCount` is the number of segments parsed from the media
playlist, while the number of chunks assembled into the artifact is the
number of successful fetches; with at least one in-budget failed segment
the reported count strictly exceeds the assembled chunk count. -/
theorem c10_segmentCount_overcounts (afetch : JSStr → FetchOutcome)
    (decrypt : DecryptOracle) (mc : Nat) (content baseUrl : JSStr) (vf : Option JSStr)
    (chunks : List (List Nat)) (fn : JSStr) (cnt : Nat)
    (h : downloadHLSSegmentsRun afetch decrypt mc content baseUrl vf = .ok chunks fn cnt) :
    cnt = (parseM3U8Segments content baseUrl).length ∧
    chunks.length = countFetchOk afetch (parseM3U8Segments content baseUrl) ∧
    (0 < countHttpFail afetch (parseM3U8Segments content baseUrl) →
      chunks.length < cnt) := by
  obtain ⟨h1, h2⟩ := downloadHLSSegmentsRun_ok_inv afetch decrypt mc content baseUrl vf
    chunks fn cnt h
  refine ⟨h1, h2, fun hf => ?_⟩
  have hle := countOk_add_countFail_le afetch (parseM3U8Segments content baseUrl)
  omega

/-- C10 witness: four parsed segments with exactly one failing fetch —
the run succeeds with three chunks but reports `segmentCount = 4`. -/
theorem c10_witness :
    downloadHLSSegmentsRun wFetchOneFail wDecrypt 3 wSegText wBase none =
      .ok [(strLit "https://h/p/sA.ts").map Char.toNat,
        (strLit "https://h/p/sC.ts").map Char.toNat,
        (strLit "https://h/p/sD.ts").map Char.toNat] (hlsOutputFilename none) 4 ∧
    (4 = (parseM3U8Segments wSegText wBase).length ∧
      ([(strLit "https://h/p/sA.ts").map Char.toNat,
        (strLit "https://h/p/sC.ts").map Char.toNat,
        (strLit "https://h/p/sD.ts").map Char.toNat] : List (List Nat)).length =
        countFetchOk wFetchOneFail (parseM3U8Segments wSegText wBase) ∧
      (0 < countHttpFail wFetchOneFail (parseM3U8Segments wSegText wBase) →
        ([(strLit "https://h/p/sA.ts").map Char.toNat,
          (strLit "https://h/p/sC.ts").map Char.toNat,
          (strLit "https://h/p/sD.ts").map Char.toNat] : List (List Nat)).length < 4)) :=
  ⟨by decide,
   c10_segmentCount_overcounts wFetchOneFail wDecrypt 3 wSegText wBase none
     [(strLit "https://h/p/sA.ts").map Char.toNat,
      (strLit "https://h/p/sC.ts").map Char.toNat,
      (strLit "https://h/p/sD.ts").map Char.toNat] (hlsOutputFilename none) 4
     (by decide)⟩

/-- C1: for every HLS segmented download whose segment list is non-empty
and whose fetches all succeed — encrypted playlists included — the run
saves exactly the per-segment bodies, each passed through the run's
decryption step at its own list position, concatenated in segment-list
order, and reports the parsed segment count; when the playlist carries no
key directive this is literally the concatenation of the fetched segment
bytes in order.  Moreover the run under any completion order of the
concurrent requests within each batch window (any permutation schedule of
each window's indices) produces the identical result, with no restriction
on encryption, so re-runs under completion-order jitter reassemble
identical bytes. -/
theorem c1_order_stable_assembly (afetch : JSStr → FetchOutcome)
    (decrypt : DecryptOracle) (mc : Nat) (content baseUrl : JSStr) (vf : Option JSStr)
    (hne : parseM3U8Segments content baseUrl ≠ [])
    (hok : ∀ s ∈ parseM3U8Segments content baseUrl, (afetch s.url).isOk = true) :
    downloadHLSSegmentsRun afetch decrypt mc content baseUrl vf =
      .ok (idxMap (fun p s =>
          segTransform decrypt (hlsDecryptionKey afetch content baseUrl)
            (parseM3U8Key content baseUrl) (afetch s.url).bytesD p) 0
          (parseM3U8Segments content baseUrl))
        (hlsOutputFilename vf) (parseM3U8Segments content baseUrl).length ∧
    (parseM3U8Key content baseUrl = none →
      downloadHLSSegmentsRun afetch decrypt mc content baseUrl vf =
        .ok ((parseM3U8Segments content baseUrl).map fun s => (afetch s.url).bytesD)
          (hlsOutputFilename vf) (parseM3U8Segments content baseUrl).length) ∧
    ∀ sched : Nat → List Nat,
      (∀ j : Nat,
        j < (chunksOf (effectiveBatchSize mc) (parseM3U8Segments content baseUrl)).length →
        (sched j).Perm (List.range
          ((chunksOf (effectiveBatchSize mc)
            (parseM3U8Segments content baseUrl))[j]!.length))) →
      downloadHLSSegmentsRunSched afetch decrypt mc sched content baseUrl vf =
        downloadHLSSegmentsRun afetch decrypt mc content baseUrl vf :=
  ⟨downloadHLSSegmentsRun_allOk_tr afetch decrypt mc content baseUrl vf hne hok,
   fun hkey => downloadHLSSegmentsRun_allOk afetch decrypt mc content baseUrl vf hne hok hkey,
   fun sched hsched =>
     downloadHLSSegmentsRunSched_eq afetch decrypt mc sched content baseUrl vf hok hsched⟩

/-- C1 witness: the four-segment all-success fixture run under a
reversed completion order for the first window equals the canonical run,
and (the playlist being key-free) the canonical run assembles the fetched
segment bodies in list order. -/
theorem c1_witness :
    downloadHLSSegmentsRunSched wFetchAllOk wDecrypt 3 wSched wSegText wBase none =
      downloadHLSSegmentsRun wFetchAllOk wDecrypt 3 wSegText wBase none ∧
    downloadHLSSegmentsRun wFetchAllOk wDecrypt 3 wSegText wBase none =
      .ok ((parseM3U8Segments wSegText wBase).map fun s => (wFetchAllOk s.url).bytesD)
        (hlsOutputFilename none) (parseM3U8Segments wSegText wBase).length :=
  ⟨(c1_order_stable_assembly wFetchAllOk wDecrypt 3 wSegText wBase none
      (by decide) (by decide)).2.2 wSched (by decide),
   (c1_order_stable_assembly wFetchAllOk wDecrypt 3 wSegText wBase none
      (by decide) (by decide)).2.1 (by decide)⟩

unseal List.merge List.mergeSort in
/-- C7: `parseM3U8Master` returns the variant entries sorted by
descending bandwidth for every input (a stable sort on the collected
entries; with pairwise-distinct bandwidths, as in the scenario, the
descent is strict), and on the scenario-A master playlist (variants at
1,200,000 and 3,000,000 bps) the parsed order is [3000000, 1200000]. -/
theorem c7_master_sorted_desc :
    (∀ (content baseUrl : JSStr),
      List.Pairwise (fun a b : HQual => b.bandwidth ≤ a.bandwidth)
        (parseM3U8Master content baseUrl)) ∧
    (parseM3U8Master
      (strLit "#EXTM3U\n#EXT-X-STREAM-INF:BANDWIDTH=1200000\nlow.m3u8\n#EXT-X-STREAM-INF:BANDWIDTH=3000000,RESOLUTION=1280x720\nhigh.m3u8\n")
      (strLit "https://cdn.example/master.m3u8")).map HQual.bandwidth =
      [3000000, 1200000] := by
  constructor
  · intro content baseUrl
    unfold parseM3U8Master
    have h2 : ((masterCollect baseUrl ((splitOnChar '\n' content).map trimJS)).mergeSort
        fun a b : HQual => decide (b.bandwidth ≤ a.bandwidth)).Pairwise
        (fun a b : HQual => decide (b.bandwidth ≤ a.bandwidth) = true) :=
      List.sorted_mergeSort
        (fun a b c h1 h2 => by
          simp only [decide_eq_true_eq] at h1 h2 ⊢
          omega)
        (fun a b => by
          simp only [Bool.or_eq_true, decide_eq_true_eq]
          omega)
        (masterCollect baseUrl ((splitOnChar '\n' content).map trimJS))
    exact h2.imp fun hab => by simpa using hab
  · decide

/-- C8: for every valid media playlist rendered from N EXTINF/URI pairs
(`ValidPairs`), `parseM3U8Segments` returns exactly those N segments in
file order, each carrying the `parseFloat` value of its preceding EXTINF
duration text and its URI resolved against the playlist base URL; and on
the scenario-B playlist with base `https://cdn.example/path/index.m3u8`
the two segments resolve to `.../seg1.ts` and `.../seg2.ts`, each with
duration 6.006 (the exact decimal 6006/10^3). -/
theorem c8_media_segments (base : JSStr) (pairs : List (JSStr × JSStr))
    (h : ValidPairs pairs) :
    parseM3U8Segments (mediaPlaylistText pairs) base =
      (pairs.map fun p =>
        { url := resolveUrl base p.2, duration := parseFloatJS (p.1 ++ [',']) }) ∧
    (parseM3U8Segments (mediaPlaylistText pairs) base).length = pairs.length ∧
    parseM3U8Segments (strLit "#EXTINF:6.006,\nseg1.ts\n#EXTINF:6.006,\nseg2.ts")
      (strLit "https://cdn.example/path/index.m3u8") =
      [{ url := strLit "https://cdn.example/path/seg1.ts",
         duration := some { num := 6006, exp := 3 } },
       { url := strLit "https://cdn.example/path/seg2.ts",
         duration := some { num := 6006, exp := 3 } }] := by
  refine ⟨parseM3U8Segments_pairs base pairs h, ?_, by decide⟩
  rw [parseM3U8Segments_pairs base pairs h, List.length_map]

/-- C8 witness: the general part at a concrete two-pair playlist. -/
theorem c8_witness :
    ValidPairs [(strLit "4", strLit "a.ts"), (strLit "5.5", strLit "b.ts")] ∧
    parseM3U8Segments
      (mediaPlaylistText [(strLit "4", strLit "a.ts"), (strLit "5.5", strLit "b.ts")])
      wBase =
      [(strLit "4", strLit "a.ts"), (strLit "5.5", strLit "b.ts")].map fun p =>
        { url := resolveUrl wBase p.2, duration := parseFloatJS (p.1 ++ [',']) } :=
  ⟨by unfold ValidPairs; decide,
   (c8_media_segments wBase [(strLit "4", strLit "a.ts"), (strLit "5.5", strLit "b.ts")]
     (by unfold ValidPairs; decide)).1⟩

set_option maxRecDepth 100000 in
/-- C9 counterexample: the 200-character cap is applied after the
extension is appended, so a 200-character base name loses its `.ts`
extension: the saved HLS filename for a 200-`a` video name is 200
characters long and does not end with `.ts`. -/
theorem c9_counterexample :
    endsWithJS (strLit ".ts") (hlsOutputFilename (some (List.replicate 200 'a'))) =
      false ∧
    (hlsOutputFilename (some (List.replicate 200 'a'))).length = 200 := by
  refine ⟨by decide, by decide⟩

/-- C9 (amended): every filename handed to the file-save step has the
reserved characters replaced by underscores (none survive), whitespace
runs collapsed (only plain spaces, never two adjacent), and length at
most 200; it ends with the normalized extension (`.ts` for HLS, `.mp4`
for DASH) provided the sanitised name does not exceed the 200-character
cap — a longer name is truncated at 200 characters and can lose the
extension. -/
theorem c9_sanitize_filename (vf : Option JSStr) :
    ((hlsOutputFilename vf).length ≤ 200 ∧
     (∀ c ∈ hlsOutputFilename vf, isBadFileChar c = false) ∧
     (∀ c ∈ hlsOutputFilename vf, isWSChar c = true → c = ' ') ∧
     List.Chain' (fun a b => ¬ (isWSChar a = true ∧ isWSChar b = true))
       (hlsOutputFilename vf) ∧
     ((sanitizePreCap (stripHLSExt (filenameOrDefault vf) ++ strLit ".ts")).length ≤ 200 →
       endsWithJS (strLit ".ts") (hlsOutputFilename vf) = true)) ∧
    ((dashOutputFilename vf).length ≤ 200 ∧
     (∀ c ∈ dashOutputFilename vf, isBadFileChar c = false) ∧
     (∀ c ∈ dashOutputFilename vf, isWSChar c = true → c = ' ') ∧
     List.Chain' (fun a b => ¬ (isWSChar a = true ∧ isWSChar b = true))
       (dashOutputFilename vf) ∧
     ((sanitizePreCap (stripDASHExt (filenameOrDefault vf) ++ strLit ".mp4")).length ≤ 200 →
       endsWithJS (strLit ".mp4") (dashOutputFilename vf) = true)) := by
  have hgen : ∀ (a ext : JSStr), ext ≠ [] → (∀ c ∈ ext, isWSChar c = false) →
      (∀ c ∈ ext, isBadFileChar c = false) →
      (sanitizePreCap (a ++ ext)).length ≤ 200 →
      endsWithJS ext (sanitizeFilename (a ++ ext)) = true := by
    intro a ext hne hws hbad hlen
    unfold sanitizeFilename
    rw [List.take_of_length_le hlen]
    rw [sanitizePreCap_append_nonWS a ext hne hws hbad]
    exact List.isSuffixOf_iff_suffix.mpr (List.suffix_append _ _)
  refine ⟨⟨sanitizeFilename_length _, fun c hc => sanitizeFilename_no_bad _ c hc,
    fun c hc hws => sanitizeFilename_ws_space _ c hc hws, sanitizeFilename_chain _,
    fun hlen => hgen _ _ (by decide) (by decide) (by decide) hlen⟩,
    ⟨sanitizeFilename_length _, fun c hc => sanitizeFilename_no_bad _ c hc,
    fun c hc hws => sanitizeFilename_ws_space _ c hc hws, sanitizeFilename_chain _,
    fun hlen => hgen _ _ (by decide) (by decide) (by decide) hlen⟩⟩

/-- C9 witness: the amended claim at a short concrete name — the saved
HLS filename for `my clip.ts` ends with `.ts`. -/
theorem c9_witness :
    endsWithJS (strLit ".ts") (hlsOutputFilename (some (strLit "my clip"))) = true :=
  (c9_sanitize_filename (some (strLit "my clip"))).1.2.2.2.2 (by decide)
